import Mathlib

/-!
# Verification of the pdx-text-editor core

Shallow embedding of the document model (`src/data.rs`), the block parser and
serializer (`src/parser.rs`), the shaping entry point (`src/pdx_text.rs`), and
the text-emitting projections of the three renderers (`src/renderer.rs`,
`src/export.rs`).

Rust `&str` values are modelled as `List Char` (`Str`); byte indices returned
by `str::find` are modelled as character indices, which is faithful here
because every pattern searched for is ASCII and the two index spaces are
order-isomorphic on character boundaries.  Rust `u8` arithmetic is modelled as
`Nat` with an explicit `% 256`.  Fallible evaluation (the slice panic reachable
in `parse_content`'s image branch) is modelled by returning `Option`.
-/

set_option maxHeartbeats 1000000

abbrev Str := List Char

/-- Rust `char::is_whitespace`: the Unicode `White_Space` property. -/
def rustWS (c : Char) : Bool :=
  let n := c.toNat
  n == 0x9 || n == 0xA || n == 0xB || n == 0xC || n == 0xD || n == 0x20 ||
  n == 0x85 || n == 0xA0 || n == 0x1680 || (0x2000 ≤ n && n ≤ 0x200A) ||
  n == 0x2028 || n == 0x2029 || n == 0x202F || n == 0x205F || n == 0x3000

/-- Rust `str::trim_start`. -/
def trimStart (s : Str) : Str := s.dropWhile rustWS

/-- Rust `str::trim_end`. -/
def trimEnd (s : Str) : Str := (s.reverse.dropWhile rustWS).reverse

/-- Rust `str::trim`. -/
def rtrim (s : Str) : Str := trimEnd (trimStart s)

/-- Rust `str::starts_with` with a string pattern. -/
def startsWithS (s p : Str) : Bool := p.isPrefixOf s

/-- Rust `str::starts_with` with a char pattern. -/
def startsWithC (s : Str) (c : Char) : Bool :=
  match s with
  | [] => false
  | d :: _ => d == c

/-- Rust `str::trim_start_matches` with a char pattern. -/
def trimStartMatches (s : Str) (c : Char) : Str := s.dropWhile (· == c)

/-- Rust `str::find` with a char pattern (first index). -/
def findChar (s : Str) (c : Char) : Option Nat :=
  match s with
  | [] => none
  | d :: t => if d == c then some 0 else (findChar t c).map (· + 1)

/-- Rust `str::find` with a string pattern (index of first occurrence). -/
def findSub (s pat : Str) : Option Nat :=
  if pat.isPrefixOf s then some 0
  else
    match s with
    | [] => none
    | _ :: t => (findSub t pat).map (· + 1)

/-- Rust slice `&s[a..b]` (caller must have checked `a ≤ b ≤ s.len()`). -/
def sliceStr (s : Str) (a b : Nat) : Str := (s.drop a).take (b - a)

/-- Split on `'\n'`; always returns one more piece than there are newlines. -/
def splitNL : Str → List Str
  | [] => [[]]
  | c :: t =>
    if c = '\n' then [] :: splitNL t
    else
      match splitNL t with
      | [] => [[c]]
      | h :: r => (c :: h) :: r

/-- `Vec::join` / `format!` interleaving with a separator. -/
def joinSep (sep : Str) : List Str → Str
  | [] => []
  | [x] => x
  | x :: xs => x ++ sep ++ joinSep sep xs

/-- Strip one trailing `'\r'` (the `\r\n` handling inside Rust `str::lines`). -/
def stripCR (l : Str) : Str :=
  if l.getLast? = some '\r' then l.dropLast else l

/-- Rust `str::lines`: split at `\n` or `\r\n`; a final line terminator yields
no trailing empty line; a final piece keeps a lone trailing `'\r'`. -/
def rustLines (s : Str) : List Str :=
  (splitNL s).dropLast.map stripCR ++
    (match (splitNL s).getLast? with
     | some last => if last = [] then [] else [last]
     | none => [])

/-- Decimal rendering of a `Nat`, as Rust `Display` for unsigned integers. -/
def natStr (n : Nat) : Str := (Nat.repr n).data

/-- The test `c >= '\u{0600}' && c <= '\u{06FF}'` from `parser.rs`. -/
def isArabicChar (c : Char) : Bool := 0x600 ≤ c.toNat && c.toNat ≤ 0x6FF

/-- `text.chars().any(|c| ...)` Arabic-block scan used across the codebase. -/
def hasArabic (s : Str) : Bool := s.any isArabicChar

-- ============================================================================
-- Data model (src/data.rs)
-- ============================================================================

inductive Direction where
  | LTR | RTL | Auto
deriving DecidableEq, Repr

structure TextRun where
  text : Str
  language : Str
  direction : Direction
  style : Str
deriving DecidableEq, Repr

structure ListItem where
  content : List TextRun
deriving DecidableEq, Repr

inductive Node where
  | document (children : List Node)
  | heading (level : Nat) (runs : List TextRun) (style : Str)
  | paragraph (runs : List TextRun) (style : Str)
  | list (ordered : Bool) (items : List ListItem) (style : Str)
  | codeBlock (language : Str) (code : Str) (style : Str)
  | image (path : Str) (altText : Str) (width : Option Float) (height : Option Float)
  | divider
  | pageBreak
deriving Repr

/-- `TextRun::new`: direction is derived from the language code alone. -/
def TextRun.new (text language style : Str) : TextRun :=
  { text := text
    language := language
    direction :=
      if language = "ar".data ∨ language = "fa".data ∨ language = "ur".data then
        Direction.RTL
      else
        Direction.LTR
    style := style }

-- ============================================================================
-- Serializer (src/parser.rs, serialize_content)
-- ============================================================================

/-- `"#".repeat(level)`. -/
def repChar (c : Char) (n : Nat) : Str := List.replicate n c

/-- Run texts joined with single spaces, as in `serialize_content`. -/
def runsText (runs : List TextRun) : Str :=
  joinSep " ".data (runs.map (·.text))

mutual

/-- `serialize_content` from `src/parser.rs`; the `document` arm collects its
children's serializations (`serializeChildren` is the `.iter().map(...)`). -/
def serialize_content : Node → Str
  | .document children => joinSep "\n\n".data (serializeChildren children)
  | .heading level runs _ => repChar '#' level ++ ' ' :: runsText runs
  | .paragraph runs _ => runsText runs
  | .list ordered items _ =>
      joinSep "\n".data
        ((items.enum.map fun p =>
          (if ordered then natStr (p.1 + 1) ++ ".".data else "-".data) ++
            ' ' :: joinSep " ".data (p.2.content.map (·.text))))
  | .codeBlock language code _ => "```".data ++ language ++ '\n' :: code ++ '\n' :: "```".data
  | .image path altText _ _ => "![".data ++ altText ++ "](".data ++ path ++ ")".data
  | .divider => "---".data
  | .pageBreak => "===".data

def serializeChildren : List Node → List Str
  | [] => []
  | n :: ns => serialize_content n :: serializeChildren ns

end

-- ============================================================================
-- Parser (src/parser.rs, parse_content)
-- ============================================================================

/-- Language code chosen from the Arabic-block scan. -/
def arLang (t : Str) : Str := if hasArabic t then "ar".data else "en".data

/-- `format!("heading{}", level)`. -/
def headingStyle (level : Nat) : Str := "heading".data ++ natStr level

/-- The paragraph style chosen in the final parser branch. -/
def paraStyle (t : Str) : Str := if hasArabic t then "arabic".data else "paragraph".data

/-- One list item as built inside the list-consuming loop. -/
def mkItem (l : Str) : ListItem :=
  let t := rtrim (trimStartMatches (trimStartMatches (rtrim l) '-') '•')
  ⟨[TextRun.new t (arLang t) "paragraph".data]⟩

/-- Bullet test re-applied by the list-consuming loop to each raw line. -/
def isBullet (l : Str) : Bool :=
  startsWithC (rtrim l) '-' || startsWithC (rtrim l) '•'

/-- Fence test applied by the code-consuming loop to each raw line. -/
def isFence (l : Str) : Bool := startsWithS (rtrim l) "```".data

/-- The block scanner of `parse_content`, fuel-indexed so that it is
structurally recursive; `none` models the slice panic reachable in the
image branch.  Fuel `lines.length + 1` always suffices because every
recursive call consumes at least one line. -/
def parseB : Nat → List Str → Option (List Node)
  | 0, _ => none
  | _ + 1, [] => some []
  | fuel + 1, l :: rest =>
    let line := rtrim l
    if line = [] then parseB fuel rest
    else
      -- the `if line.starts_with("![")` block falls through on a failed match
      let rest' : Option (List Node) :=
        if startsWithC line '#' then
          let level := (line.takeWhile (· == '#')).length % 256
          let t := rtrim (trimStartMatches line '#')
          ((Node.heading level [TextRun.new t (arLang t) (headingStyle level)]
              (headingStyle level)) :: ·) <$> parseB fuel rest
        else if startsWithS line "```".data then
          let language0 := rtrim (trimStartMatches line '`')
          let language := if language0 = [] then "text".data else language0
          let codeLines := rest.takeWhile (fun l2 => !isFence l2)
          let rest2 := (rest.dropWhile (fun l2 => !isFence l2)).drop 1
          ((Node.codeBlock language (joinSep "\n".data codeLines) "code".data) :: ·) <$>
            parseB fuel rest2
        else if startsWithC line '-' || startsWithC line '•' then
          let itemLines := (l :: rest).takeWhile isBullet
          let rest2 := (l :: rest).dropWhile isBullet
          ((Node.list false (itemLines.map mkItem) "list".data) :: ·) <$> parseB fuel rest2
        else if line = "---".data then
          (Node.divider :: ·) <$> parseB fuel rest
        else if line = "===".data then
          (Node.pageBreak :: ·) <$> parseB fuel rest
        else
          ((Node.paragraph [TextRun.new line (arLang line) (paraStyle line)]
              (paraStyle line)) :: ·) <$> parseB fuel rest
      if startsWithS line "![".data then
        match findSub line "](".data, findChar line ')' with
        | some cb, some cp =>
          if 2 ≤ cb ∧ cb + 2 ≤ cp then
            ((Node.image (sliceStr line (cb + 2) cp) (sliceStr line 2 cb) none none) :: ·) <$>
              parseB fuel rest
          else
            none  -- `&line[close_bracket + 2..close_paren]` panics: start > end
        | _, _ => rest'
      else rest'

/-- `parse_content`: scan the lines of the input into a `Document`. -/
def parse_content (s : Str) : Option Node :=
  (Node.document ·) <$> parseB ((rustLines s).length + 1) (rustLines s)

-- ============================================================================
-- Shaping entry point (src/pdx_text.rs)
-- ============================================================================

/-- `pdx_text`: the Arabic-block fast path is from the source; the slow path
(`ArabicReshaper::reshape` followed by `BidiInfo::reorder_line`, both external
library crates) is abstracted as the `reshapeBidi` parameter, so theorems
quantify over every possible behaviour of those libraries. -/
def pdx_text (reshapeBidi : Str → Str) (input : Str) : Str :=
  if hasArabic input = false then input else reshapeBidi input

/-- `is_arabic` from `src/pdx_text.rs`. -/
def is_arabic (text : Str) : Bool := hasArabic text

/-- `detect_direction` from `src/pdx_text.rs`. -/
def detect_direction (text : Str) : Direction :=
  if is_arabic text then Direction.RTL else Direction.LTR

-- ============================================================================
-- Styles and style resolution (src/data.rs, src/renderer.rs)
-- ============================================================================

inductive FontWeight where
  | Normal | Bold | Light
deriving DecidableEq, Repr

inductive TextAlign where
  | Start | End | Center | Justify
deriving DecidableEq, Repr

/-- RGB triple; each component is a `u8` (values below 256). -/
structure Color where
  r : Nat
  g : Nat
  b : Nat
deriving DecidableEq, Repr

def Color.rgb (r g b : Nat) : Color := ⟨r, g, b⟩

structure EdgeInsets where
  top : Float
  right : Float
  bottom : Float
  left : Float
deriving Repr

def EdgeInsets.new (top right bottom left : Float) : EdgeInsets :=
  ⟨top, right, bottom, left⟩

def EdgeInsets.all (value : Float) : EdgeInsets := EdgeInsets.new value value value value

structure Style where
  font_size : Float
  font_weight : FontWeight
  color : Color
  text_align : TextAlign
  direction : Direction
  line_height : Float
  margin : EdgeInsets
  padding : EdgeInsets
deriving Repr

/-- `#[derive(Default)]` for `Style`: every field takes its zero/default. -/
def defaultStyle : Style :=
  { font_size := 0.0
    font_weight := FontWeight.Normal
    color := Color.rgb 0 0 0
    text_align := TextAlign.Start
    direction := Direction.Auto
    line_height := 0.0
    margin := EdgeInsets.all 0.0
    padding := EdgeInsets.all 0.0 }

/-- `StyleSheet`; the `HashMap<String, Style>` is modelled as an association
list looked up by exact key. -/
structure StyleSheet where
  styles : List (Str × Style)
  active_theme : Str

def lookupStyle : List (Str × Style) → Str → Option Style
  | [], _ => none
  | (k, v) :: t, name => if k = name then some v else lookupStyle t name

/-- The style resolution expression of `render_node`
(`styles.styles.get(style).cloned().unwrap_or_default()`), in state-passing
form: the Rust call borrows the sheet immutably, so the returned sheet is the
input sheet — making "the lookup does not insert into the sheet" a provable
statement rather than a typing convention. -/
def resolveStyleS (sheet : StyleSheet) (name : Str) : Style × StyleSheet :=
  ((lookupStyle sheet.styles name).getD defaultStyle, sheet)

-- ============================================================================
-- Render projections: emitted-text models
-- (src/renderer.rs render_node, src/export.rs node_to_html / render_node_to_pdf)
-- ============================================================================

/-- `runs.iter().any(|r| r.direction == Direction::RTL)`. -/
def anyRTL (runs : List TextRun) : Bool := runs.any (·.direction == Direction.RTL)

/-- `runs.iter().map(|r| r.text.clone()).collect::<String>()`. -/
def concatTexts (runs : List TextRun) : Str := (runs.map (·.text)).flatten

mutual

/-- The interactive preview (`render_node` in `src/renderer.rs`), projected to
the sequence of strings handed to `ui.label` in drawing order; spacing,
font sizes, colors and image textures (which carry no run text) are projected
away.  `imageLoaded` models the `images: &HashMap<String, TextureHandle>`
lookup. -/
def previewTexts (f : Str → Str) (imageLoaded : Str → Bool) : Node → List Str
  | .document children => previewTextsList f imageLoaded children
  | .heading _ runs _ =>
      if anyRTL runs then runs.reverse.map (fun r => pdx_text f r.text)
      else runs.map (fun r => pdx_text f r.text)
  | .paragraph runs _ =>
      if anyRTL runs then runs.reverse.map (fun r => pdx_text f r.text)
      else runs.map (fun r => pdx_text f r.text)
  | .list ordered items _ =>
      (items.enum.map fun p =>
        if anyRTL p.2.content then
          p.2.content.reverse.map (fun r => pdx_text f r.text) ++
            [if ordered then '.' :: natStr (p.1 + 1) else "•".data]
        else
          (if ordered then natStr (p.1 + 1) ++ ".".data else "•".data) ::
            p.2.content.map (fun r => pdx_text f r.text)).flatten
  | .codeBlock language code _ => [language, code]
  | .image path altText _ _ =>
      if imageLoaded path then [] else ["🖼️ [Image: ".data ++ altText ++ "]".data]
  | .divider => []
  | .pageBreak => ["— Page Break —".data]

def previewTextsList (f : Str → Str) (imageLoaded : Str → Bool) : List Node → List Str
  | [] => []
  | n :: ns => previewTexts f imageLoaded n ++ previewTextsList f imageLoaded ns

end

mutual

/-- `node_to_html` from `export_as_html` in `src/export.rs`. -/
def node_to_html : Node → Str
  | .document children => htmlChildren children
  | .heading level runs _ =>
      "<h".data ++ natStr level ++ " class=\"".data ++
        (if anyRTL runs then "rtl".data else "ltr".data) ++ "\">".data ++
        concatTexts runs ++ "</h".data ++ natStr level ++ ">\n".data
  | .paragraph runs _ =>
      "<p class=\"".data ++ (if anyRTL runs then "rtl".data else "ltr".data) ++
        "\">".data ++ concatTexts runs ++ "</p>\n".data
  | .list ordered items _ =>
      (if ordered then "<ol>".data else "<ul>".data) ++
        (items.map fun item =>
          "<li class=\"".data ++
            (if anyRTL item.content then "rtl".data else "ltr".data) ++ "\">".data ++
            concatTexts item.content ++ "</li>".data).flatten ++
        (if ordered then "</ol>\n".data else "</ul>\n".data)
  | .codeBlock language code _ =>
      "<pre><code class=\"language-".data ++ language ++ "\">".data ++ code ++
        "</code></pre>\n".data
  | .image path altText _ _ =>
      "<img src=\"".data ++ path ++ "\" alt=\"".data ++ altText ++ "\" />\n".data
  | .divider => "<hr/>\n".data
  | .pageBreak => "<hr style=\"border-top: 3px double #ddd;\"/>\n".data

def htmlChildren : List Node → Str
  | [] => []
  | n :: ns => node_to_html n ++ htmlChildren ns

end

mutual

/-- The paginated export (`render_node_to_pdf` in `src/export.rs`), projected
to the sequence of strings handed to `layer.use_text` in drawing order; the
positions and font sizes do not affect which text is written and are projected
away. The wildcard `_ => {}` arm of the Rust `match` (covering `CodeBlock` and
`Image`) emits nothing. -/
def pdfTexts (f : Str → Str) : Node → List Str
  | .document children => pdfTextsList f children
  | .heading _ runs _ => [pdx_text f (concatTexts runs)]
  | .paragraph runs _ => [pdx_text f (concatTexts runs)]
  | .list ordered items _ =>
      items.enum.map fun p =>
        pdx_text f ((if ordered then natStr (p.1 + 1) ++ ".".data else "•".data) ++
          ' ' :: concatTexts p.2.content)
  | .divider => []
  | .pageBreak => []
  | .codeBlock _ _ _ => []
  | .image _ _ _ _ => []

def pdfTextsList (f : Str → Str) : List Node → List Str
  | [] => []
  | n :: ns => pdfTexts f n ++ pdfTextsList f ns

end

mutual

/-- Replace every `TextRun.text` in a tree by `g` of itself, leaving language,
direction and style untouched (used to state "a consumer applies shaping to
every run before drawing"). -/
def mapRunTexts (g : Str → Str) : Node → Node
  | .document children => .document (mapRunTextsList g children)
  | .heading level runs style => .heading level (runs.map fun r => { r with text := g r.text }) style
  | .paragraph runs style => .paragraph (runs.map fun r => { r with text := g r.text }) style
  | .list ordered items style =>
      .list ordered (items.map fun it => ⟨it.content.map fun r => { r with text := g r.text }⟩) style
  | .codeBlock language code style => .codeBlock language code style
  | .image path altText w h => .image path altText w h
  | .divider => .divider
  | .pageBreak => .pageBreak

def mapRunTextsList (g : Str → Str) : List Node → List Node
  | [] => []
  | n :: ns => mapRunTexts g n :: mapRunTextsList g ns

end

-- ============================================================================
-- Basic string lemmas
-- ============================================================================

theorem trimStart_nil : trimStart [] = [] := rfl

theorem trimStart_cons_neg {c : Char} (t : Str) (h : rustWS c = false) :
    trimStart (c :: t) = c :: t := by
  simp [trimStart, List.dropWhile_cons, h]

theorem trimStart_head (s : Str) :
    trimStart s = [] ∨ ∃ c t, trimStart s = c :: t ∧ rustWS c = false := by
  induction s with
  | nil => exact Or.inl rfl
  | cons c t ih =>
    by_cases h : rustWS c
    · simpa [trimStart, List.dropWhile_cons, h] using ih
    · exact Or.inr ⟨c, t, by simp [trimStart, List.dropWhile_cons, h], by simpa using h⟩

theorem trimStart_idem (s : Str) : trimStart (trimStart s) = trimStart s := by
  rcases trimStart_head s with h | ⟨c, t, h, hc⟩
  · simp [h, trimStart_nil]
  · rw [h, trimStart_cons_neg _ hc]

theorem dropWhile_idem (p : Char → Bool) (l : Str) :
    (l.dropWhile p).dropWhile p = l.dropWhile p := by
  induction l with
  | nil => rfl
  | cons c t ih =>
    by_cases h : p c
    · simp [List.dropWhile_cons, h, ih]
    · simp [List.dropWhile_cons, h]

theorem trimEnd_prefix (s : Str) : trimEnd s <+: s := by
  have h := List.dropWhile_suffix (l := s.reverse) (p := rustWS)
  have h2 : (s.reverse.dropWhile rustWS).reverse <+: s.reverse.reverse :=
    List.reverse_prefix.mpr h
  simpa [trimEnd] using h2

theorem trimEnd_nil : trimEnd [] = [] := rfl

theorem trimEnd_idem (s : Str) : trimEnd (trimEnd s) = trimEnd s := by
  show ((((s.reverse.dropWhile rustWS).reverse).reverse.dropWhile rustWS)).reverse = _
  rw [List.reverse_reverse, dropWhile_idem]
  rfl

theorem trimStart_trimEnd (s : Str) :
    trimStart (trimEnd (trimStart s)) = trimEnd (trimStart s) := by
  rcases trimStart_head s with h | ⟨c, t, h, hc⟩
  · simp [h, trimEnd_nil, trimStart_nil]
  · rw [h]
    rcases trimEnd_prefix (c :: t) with ⟨r, hr⟩
    rcases he : trimEnd (c :: t) with _ | ⟨d, u⟩
    · simp [trimStart_nil]
    · rw [he] at hr
      simp only [List.cons_append] at hr
      injection hr with h1 _
      subst h1
      exact trimStart_cons_neg _ hc

theorem rtrim_idem (s : Str) : rtrim (rtrim s) = rtrim s := by
  unfold rtrim
  rw [trimStart_trimEnd, trimEnd_idem]

/-- `rtrim` fixes a list that starts and ends with non-whitespace. -/
theorem rtrim_eq_self_of_ends {c d : Char} (l : Str)
    (hc : rustWS c = false) (hd : rustWS d = false) :
    rtrim (c :: (l ++ [d])) = c :: (l ++ [d]) := by
  unfold rtrim
  rw [trimStart_cons_neg _ hc]
  simp [trimEnd, List.dropWhile_cons, hd]

theorem rtrim_singleton {c : Char} (hc : rustWS c = false) :
    rtrim [c] = [c] := by
  simp [rtrim, trimStart, trimEnd, List.dropWhile_cons, hc]

theorem mem_trimStart {c : Char} {s : Str} (h : c ∈ trimStart s) : c ∈ s :=
  (List.dropWhile_sublist _).mem h

theorem mem_trimEnd {c : Char} {s : Str} (h : c ∈ trimEnd s) : c ∈ s := by
  rcases trimEnd_prefix s with ⟨r, hr⟩
  exact hr ▸ List.mem_append.mpr (Or.inl h)

theorem mem_rtrim {c : Char} {s : Str} (h : c ∈ rtrim s) : c ∈ s :=
  mem_trimStart (mem_trimEnd h)

theorem mem_dropWhileEq {c : Char} {p : Char → Bool} {s : Str}
    (h : c ∈ s.dropWhile p) : c ∈ s :=
  (List.dropWhile_sublist _).mem h

-- ============================================================================
-- splitNL / joinSep lemmas
-- ============================================================================

theorem splitNL_ne_nil (s : Str) : splitNL s ≠ [] := by
  induction s with
  | nil => simp [splitNL]
  | cons c t ih =>
    by_cases h : c = '\n'
    · simp [splitNL, h]
    · simp only [splitNL, if_neg h]
      rcases hs : splitNL t with _ | ⟨p, ps⟩
      · simp
      · simp

theorem splitNL_no_nl (s : Str) : ∀ p ∈ splitNL s, '\n' ∉ p := by
  induction s with
  | nil => intro p hp; simp [splitNL] at hp; simp [hp]
  | cons c t ih =>
    intro p hp
    by_cases h : c = '\n'
    · simp only [splitNL, if_pos h, List.mem_cons] at hp
      rcases hp with rfl | hp
      · simp
      · exact ih p hp
    · simp only [splitNL, if_neg h] at hp
      rcases hs : splitNL t with _ | ⟨q, qs⟩
      · exact absurd hs (splitNL_ne_nil t)
      · rw [hs] at hp
        simp only [List.mem_cons] at hp
        rcases hp with rfl | hp
        · intro hm
          rcases List.mem_cons.mp hm with rfl | hm
          · exact h rfl
          · exact ih q (hs ▸ List.mem_cons_self _ _) hm
        · exact ih p (hs ▸ List.mem_cons.mpr (Or.inr hp))

/-- A newline-free list splits into the single piece it is. -/
theorem splitNL_nl_free (a : Str) (ha : '\n' ∉ a) : splitNL a = [a] := by
  induction a with
  | nil => rfl
  | cons c t ih =>
    have hc : ¬ c = '\n' := fun hc => ha (hc ▸ List.mem_cons_self _ _)
    have ht : '\n' ∉ t := fun hm => ha (List.mem_cons.mpr (Or.inr hm))
    simp only [splitNL, if_neg hc, ih ht]

/-- Splitting peels a newline-free head piece off at its terminator. -/
theorem splitNL_append_nl (a b : Str) (ha : '\n' ∉ a) :
    splitNL (a ++ '\n' :: b) = a :: splitNL b := by
  induction a with
  | nil => simp [splitNL]
  | cons c t ih =>
    have hc : ¬ c = '\n' := fun hc => ha (hc ▸ List.mem_cons_self _ _)
    have ht : '\n' ∉ t := fun hm => ha (List.mem_cons.mpr (Or.inr hm))
    have hrec := ih ht
    simp only [List.cons_append, splitNL, if_neg hc, List.append_eq, hrec]

/-- Splitting undoes joining on newline-free pieces. -/
theorem splitNL_joinSep (ls : List Str) (hne : ls ≠ [])
    (hnl : ∀ l ∈ ls, '\n' ∉ l) :
    splitNL (joinSep "\n".data ls) = ls := by
  induction ls with
  | nil => exact absurd rfl hne
  | cons l rest ih =>
    rcases rest with _ | ⟨l2, rest'⟩
    · exact splitNL_nl_free l (hnl l (by simp))
    · have hstep : joinSep "\n".data (l :: l2 :: rest') =
          l ++ '\n' :: joinSep "\n".data (l2 :: rest') := by
        show l ++ "\n".data ++ _ = _
        simp
      rw [hstep, splitNL_append_nl _ _ (hnl l (by simp)),
        ih (by simp) (fun x hx => hnl x (List.mem_cons.mpr (Or.inr hx)))]

/-- Joining undoes splitting, unconditionally. -/
theorem joinSep_splitNL (s : Str) : joinSep "\n".data (splitNL s) = s := by
  induction s with
  | nil => rfl
  | cons c t ih =>
    by_cases h : c = '\n'
    · subst h
      show joinSep _ ([] :: splitNL t) = _
      rcases hs : splitNL t with _ | ⟨p, ps⟩
      · exact absurd hs (splitNL_ne_nil t)
      · show [] ++ "\n".data ++ joinSep _ (p :: ps) = _
        rw [← hs, ih]
        rfl
    · simp only [splitNL, if_neg h]
      rcases hs : splitNL t with _ | ⟨p, ps⟩
      · exact absurd hs (splitNL_ne_nil t)
      · rw [hs] at ih
        rcases ps with _ | ⟨q, qs⟩
        · show c :: p = c :: t
          rw [show joinSep "\n".data [p] = p from rfl] at ih
          rw [ih]
        · show (c :: p) ++ "\n".data ++ joinSep "\n".data (q :: qs) = c :: t
          have : p ++ "\n".data ++ joinSep "\n".data (q :: qs) = t := ih
          simpa using this

-- ============================================================================
-- rustLines lemmas
-- ============================================================================

theorem stripCR_eq_self {l : Str} (h : l.getLast? ≠ some '\r') : stripCR l = l := by
  simp [stripCR, h]

/-- `str::lines` undoes a `"\n"`-join of newline-free lines, provided no
joined line but the last ends in `'\r'` and the last line is nonempty. -/
theorem rustLines_joinSep (ls : List Str)
    (hnl : ∀ l ∈ ls, '\n' ∉ l)
    (hcr : ∀ l ∈ ls.dropLast, l.getLast? ≠ some '\r')
    (hlast : ls.getLast? ≠ some []) :
    rustLines (joinSep "\n".data ls) = ls := by
  rcases ls with _ | ⟨l, rest⟩
  · rfl
  · have hsplit := splitNL_joinSep (l :: rest) (by simp) hnl
    unfold rustLines
    rw [hsplit]
    have hmap : (l :: rest).dropLast.map stripCR = (l :: rest).dropLast := by
      rw [List.map_congr_left (fun x hx => stripCR_eq_self (hcr x hx))]
      simp
    rw [hmap]
    have hne : (l :: rest) ≠ [] := by simp
    have hgl : (l :: rest).getLast? = some ((l :: rest).getLast hne) :=
      List.getLast?_eq_getLast _ hne
    rw [hgl]
    have hlne : (l :: rest).getLast hne ≠ [] := by
      intro h0
      apply hlast
      rw [hgl, h0]
    show (l :: rest).dropLast ++
      (if (l :: rest).getLast hne = [] then [] else [(l :: rest).getLast hne]) = l :: rest
    rw [if_neg hlne]
    exact List.dropLast_append_getLast hne

-- ============================================================================
-- takeWhile / dropWhile over appends
-- ============================================================================

theorem takeWhile_app {α : Type} (p : α → Bool) (l1 l2 : List α)
    (h1 : ∀ a ∈ l1, p a = true) (h2 : ∀ b, l2.head? = some b → p b = false) :
    (l1 ++ l2).takeWhile p = l1 := by
  induction l1 with
  | nil =>
    rcases l2 with _ | ⟨b, t⟩
    · rfl
    · simp [List.takeWhile_cons, h2 b rfl]
  | cons a t ih =>
    simp only [List.cons_append, List.takeWhile_cons, h1 a (by simp), if_true]
    rw [ih (fun x hx => h1 x (by simp [hx]))]

theorem dropWhile_app {α : Type} (p : α → Bool) (l1 l2 : List α)
    (h1 : ∀ a ∈ l1, p a = true) (h2 : ∀ b, l2.head? = some b → p b = false) :
    (l1 ++ l2).dropWhile p = l2 := by
  induction l1 with
  | nil =>
    rcases l2 with _ | ⟨b, t⟩
    · rfl
    · simp [List.dropWhile_cons, h2 b rfl]
  | cons a t ih =>
    simp only [List.cons_append, List.dropWhile_cons, h1 a (by simp), if_true]
    exact ih (fun x hx => h1 x (by simp [hx]))

-- ============================================================================
-- findChar / findSub characterizations
-- ============================================================================

theorem findChar_split {s : Str} {c : Char} {i : Nat} (h : findChar s c = some i) :
    ∃ p q, s = p ++ c :: q ∧ p.length = i ∧ c ∉ p := by
  induction s generalizing i with
  | nil => simp [findChar] at h
  | cons d t ih =>
    by_cases hd : d = c
    · subst hd
      simp only [findChar, beq_self_eq_true, if_pos] at h
      cases h
      exact ⟨[], t, rfl, rfl, by simp⟩
    · simp only [findChar, beq_iff_eq, if_neg hd] at h
      rcases Option.map_eq_some'.mp h with ⟨i', hi', rfl⟩
      rcases ih hi' with ⟨p, q, rfl, rfl, hnp⟩
      exact ⟨d :: p, q, rfl, rfl, by
        intro hm
        rcases List.mem_cons.mp hm with rfl | hm
        · exact hd rfl
        · exact hnp hm⟩

theorem findChar_of_split (p q : Str) (c : Char) (h : c ∉ p) :
    findChar (p ++ c :: q) c = some p.length := by
  induction p with
  | nil => simp [findChar]
  | cons d t ih =>
    have hd : ¬ d = c := fun hd => h (hd ▸ List.mem_cons_self _ _)
    have hrec := ih (fun hm => h (List.mem_cons.mpr (Or.inr hm)))
    simp [findChar, hd, hrec]

theorem findSub_min {s pat : Str} {i : Nat} (h : findSub s pat = some i) :
    pat <+: s.drop i ∧ ∀ j, j < i → ¬ pat <+: s.drop j := by
  induction s generalizing i with
  | nil =>
    unfold findSub at h
    by_cases hp : pat.isPrefixOf ([] : Str)
    · rw [if_pos hp] at h
      cases h
      refine ⟨by simpa using List.isPrefixOf_iff_prefix.mp hp, ?_⟩
      intro j hj
      exact absurd hj (Nat.not_lt_zero j)
    · rw [if_neg hp] at h
      simp at h
  | cons d t ih =>
    unfold findSub at h
    by_cases hp : pat.isPrefixOf (d :: t)
    · rw [if_pos hp] at h
      cases h
      refine ⟨by simpa using List.isPrefixOf_iff_prefix.mp hp, ?_⟩
      intro j hj
      exact absurd hj (Nat.not_lt_zero j)
    · rw [if_neg hp] at h
      rcases Option.map_eq_some'.mp h with ⟨i', hi', rfl⟩
      rcases ih hi' with ⟨h1, h2⟩
      refine ⟨by simpa using h1, ?_⟩
      intro j hj
      rcases j with _ | j
      · intro hc
        exact hp (List.isPrefixOf_iff_prefix.mpr (by simpa using hc))
      · intro hc
        exact h2 j (by omega) (by simpa using hc)

theorem findSub_of_min {s pat : Str} {i : Nat}
    (h1 : pat <+: s.drop i) (h2 : ∀ j, j < i → ¬ pat <+: s.drop j) :
    findSub s pat = some i := by
  induction s generalizing i with
  | nil =>
    rcases i with _ | i
    · rw [List.drop_zero] at h1
      unfold findSub
      rw [if_pos (List.isPrefixOf_iff_prefix.mpr h1)]
    · exact absurd (by simpa using h1) (by simpa using h2 0 (by omega))
  | cons d t ih =>
    rcases i with _ | i
    · rw [List.drop_zero] at h1
      unfold findSub
      rw [if_pos (List.isPrefixOf_iff_prefix.mpr h1)]
    · have h0 : ¬ pat.isPrefixOf (d :: t) := by
        intro hc
        exact h2 0 (by omega) (by simpa using List.isPrefixOf_iff_prefix.mp hc)
      unfold findSub
      rw [if_neg h0]
      show Option.map (fun x => x + 1) (findSub t pat) = some (i + 1)
      rw [ih (by simpa using h1) (fun j hj => by simpa using h2 (j + 1) (by omega))]
      rfl

-- ============================================================================
-- parseB fuel irrelevance
-- ============================================================================

/-- Every recursive call of `parseB` consumes at least one line, so any fuel
exceeding the number of lines computes the same result. -/
theorem parseB_fuel (n : Nat) : ∀ (f1 f2 : Nat) (ls : List Str),
    ls.length ≤ n → n < f1 → n < f2 → parseB f1 ls = parseB f2 ls := by
  induction n with
  | zero =>
    intro f1 f2 ls hl h1 h2
    have : ls = [] := List.length_eq_zero.mp (Nat.le_zero.mp hl)
    subst this
    rcases f1 with _ | a
    · omega
    rcases f2 with _ | b
    · omega
    rfl
  | succ n ih =>
    intro f1 f2 ls hl h1 h2
    rcases ls with _ | ⟨l, rest⟩
    · rcases f1 with _ | a
      · omega
      rcases f2 with _ | b
      · omega
      rfl
    rcases f1 with _ | a
    · omega
    rcases f2 with _ | b
    · omega
    have hrest : rest.length ≤ n := by
      have := hl
      simp only [List.length_cons] at this
      omega
    have ha : n < a + 1 := by omega
    have hb : n < b + 1 := by omega
    have hrec : ∀ ls' : List Str, ls'.length ≤ n → parseB a ls' = parseB b ls' := by
      intro ls' h
      exact ih a b ls' h (by omega) (by omega)
    simp only [parseB]
    by_cases hblank : rtrim l = []
    · simp only [hblank, if_pos rfl]
      exact hrec rest hrest
    · rw [if_neg hblank, if_neg hblank]
      have hrest2code : ((rest.dropWhile (fun l2 => !isFence l2)).drop 1).length ≤ n := by
        have h1' := (List.dropWhile_sublist (l := rest) (p := fun l2 => !isFence l2)).length_le
        have h2' := List.length_drop 1 (rest.dropWhile (fun l2 => !isFence l2))
        omega
      have hrestList : ∀ hbl : isBullet l = true,
          (((l :: rest).dropWhile isBullet).length ≤ n) := by
        intro hbl
        rw [List.dropWhile_cons_of_pos hbl]
        have := (List.dropWhile_sublist (l := rest) (p := isBullet)).length_le
        omega
      have halt :
          (if startsWithC (rtrim l) '#' = true then
            ((Node.heading ((((rtrim l).takeWhile (· == '#')).length) % 256)
                [TextRun.new (rtrim (trimStartMatches (rtrim l) '#'))
                  (arLang (rtrim (trimStartMatches (rtrim l) '#')))
                  (headingStyle ((((rtrim l).takeWhile (· == '#')).length) % 256))]
                (headingStyle ((((rtrim l).takeWhile (· == '#')).length) % 256))) :: ·) <$>
              parseB a rest
          else if startsWithS (rtrim l) "```".data = true then
            ((Node.codeBlock
                (if rtrim (trimStartMatches (rtrim l) '`') = [] then "text".data
                 else rtrim (trimStartMatches (rtrim l) '`'))
                (joinSep "\n".data (rest.takeWhile (fun l2 => !isFence l2))) "code".data) :: ·) <$>
              parseB a ((rest.dropWhile (fun l2 => !isFence l2)).drop 1)
          else if (startsWithC (rtrim l) '-' || startsWithC (rtrim l) '•') = true then
            ((Node.list false (((l :: rest).takeWhile isBullet).map mkItem) "list".data) :: ·) <$>
              parseB a ((l :: rest).dropWhile isBullet)
          else if rtrim l = "---".data then
            (Node.divider :: ·) <$> parseB a rest
          else if rtrim l = "===".data then
            (Node.pageBreak :: ·) <$> parseB a rest
          else
            ((Node.paragraph [TextRun.new (rtrim l) (arLang (rtrim l)) (paraStyle (rtrim l))]
                (paraStyle (rtrim l))) :: ·) <$> parseB a rest) =
          (if startsWithC (rtrim l) '#' = true then
            ((Node.heading ((((rtrim l).takeWhile (· == '#')).length) % 256)
                [TextRun.new (rtrim (trimStartMatches (rtrim l) '#'))
                  (arLang (rtrim (trimStartMatches (rtrim l) '#')))
                  (headingStyle ((((rtrim l).takeWhile (· == '#')).length) % 256))]
                (headingStyle ((((rtrim l).takeWhile (· == '#')).length) % 256))) :: ·) <$>
              parseB b rest
          else if startsWithS (rtrim l) "```".data = true then
            ((Node.codeBlock
                (if rtrim (trimStartMatches (rtrim l) '`') = [] then "text".data
                 else rtrim (trimStartMatches (rtrim l) '`'))
                (joinSep "\n".data (rest.takeWhile (fun l2 => !isFence l2))) "code".data) :: ·) <$>
              parseB b ((rest.dropWhile (fun l2 => !isFence l2)).drop 1)
          else if (startsWithC (rtrim l) '-' || startsWithC (rtrim l) '•') = true then
            ((Node.list false (((l :: rest).takeWhile isBullet).map mkItem) "list".data) :: ·) <$>
              parseB b ((l :: rest).dropWhile isBullet)
          else if rtrim l = "---".data then
            (Node.divider :: ·) <$> parseB b rest
          else if rtrim l = "===".data then
            (Node.pageBreak :: ·) <$> parseB b rest
          else
            ((Node.paragraph [TextRun.new (rtrim l) (arLang (rtrim l)) (paraStyle (rtrim l))]
                (paraStyle (rtrim l))) :: ·) <$> parseB b rest) := by
        by_cases hh : startsWithC (rtrim l) '#' = true
        · rw [if_pos hh, if_pos hh, hrec rest hrest]
        · rw [if_neg hh, if_neg hh]
          by_cases hf : startsWithS (rtrim l) "```".data = true
          · rw [if_pos hf, if_pos hf, hrec _ hrest2code]
          · rw [if_neg hf, if_neg hf]
            by_cases hbl : (startsWithC (rtrim l) '-' || startsWithC (rtrim l) '•') = true
            · rw [if_pos hbl, if_pos hbl]
              have : isBullet l = true := by
                simpa [isBullet] using hbl
              rw [hrec _ (hrestList this)]
            · rw [if_neg hbl, if_neg hbl]
              by_cases hd : rtrim l = "---".data
              · rw [if_pos hd, if_pos hd, hrec rest hrest]
              · rw [if_neg hd, if_neg hd]
                by_cases hp : rtrim l = "===".data
                · rw [if_pos hp, if_pos hp, hrec rest hrest]
                · rw [if_neg hp, if_neg hp, hrec rest hrest]
      by_cases him : startsWithS (rtrim l) "![".data = true
      · rw [if_pos him, if_pos him]
        rcases hfs : findSub (rtrim l) "](".data with _ | cb
        · simp only [hfs]
          exact halt
        rcases hfc : findChar (rtrim l) ')' with _ | cp
        · simp only [hfs, hfc]
          exact halt
        simp only [hfs, hfc]
        by_cases hok : 2 ≤ cb ∧ cb + 2 ≤ cp
        · rw [if_pos hok, if_pos hok, hrec rest hrest]
        · rw [if_neg hok, if_neg hok]
      · rw [if_neg him, if_neg him]
        exact halt

theorem parseB_fuel_eq {f : Nat} {ls : List Str} (h : ls.length < f) :
    parseB f ls = parseB (ls.length + 1) ls :=
  parseB_fuel ls.length f (ls.length + 1) ls le_rfl h (by omega)

-- ============================================================================
-- Trimmed-string boundary lemmas
-- ============================================================================

theorem trimEnd_last (y : Str) :
    trimEnd y = [] ∨ ∃ d u, trimEnd y = u ++ [d] ∧ rustWS d = false := by
  rcases trimStart_head y.reverse with h | ⟨c, t, h, hc⟩
  · left
    show (y.reverse.dropWhile rustWS).reverse = []
    rw [show y.reverse.dropWhile rustWS = trimStart y.reverse from rfl, h]
    rfl
  · right
    refine ⟨c, t.reverse, ?_, hc⟩
    show (y.reverse.dropWhile rustWS).reverse = _
    rw [show y.reverse.dropWhile rustWS = trimStart y.reverse from rfl, h]
    simp

theorem trimmed_last {t : Str} {c : Char} (h : rtrim t = t) (hl : t.getLast? = some c) :
    rustWS c = false := by
  rcases trimEnd_last (trimStart t) with h0 | ⟨d, u, h0, hd⟩
  · rw [show trimEnd (trimStart t) = rtrim t from rfl, h] at h0
    subst h0
    simp at hl
  · rw [show trimEnd (trimStart t) = rtrim t from rfl, h] at h0
    rw [h0] at hl
    simp at hl
    exact hl ▸ hd

theorem trimmed_first {t : Str} {c : Char} (h : rtrim t = t) (hh : t.head? = some c) :
    rustWS c = false := by
  have hpre : t <+: trimStart t := by
    conv_lhs => rw [← h]
    exact trimEnd_prefix (trimStart t)
  rcases trimStart_head t with h0 | ⟨d, u, h0, hd⟩
  · rcases hpre with ⟨r, hr⟩
    rw [h0] at hr
    simp at hr
    rw [hr.1] at hh
    simp at hh
  · rcases hpre with ⟨r, hr⟩
    rw [h0] at hr
    rcases t with _ | ⟨e, t'⟩
    · simp at hh
    · simp at hh
      subst hh
      simp only [List.cons_append] at hr
      injection hr with h1 _
      exact h1 ▸ hd

-- ============================================================================
-- joinSep algebra and enum helper
-- ============================================================================

theorem joinSep_cons (sep x : Str) (xs : List Str) (h : xs ≠ []) :
    joinSep sep (x :: xs) = x ++ sep ++ joinSep sep xs := by
  rcases xs with _ | ⟨y, ys⟩
  · exact absurd rfl h
  · rfl

theorem joinSep_append (sep : Str) (xs ys : List Str) (hx : xs ≠ []) (hy : ys ≠ []) :
    joinSep sep (xs ++ ys) = joinSep sep xs ++ sep ++ joinSep sep ys := by
  induction xs with
  | nil => exact absurd rfl hx
  | cons x xs ih =>
    rcases xs with _ | ⟨x2, xs'⟩
    · rw [List.singleton_append, joinSep_cons sep x ys hy]
      rfl
    · rw [List.cons_append, joinSep_cons sep x (x2 :: xs' ++ ys) (by simp),
        joinSep_cons sep x (x2 :: xs') (by simp), ih (by simp)]
      simp

theorem enumFrom_map_snd {α β : Type} (g : α → β) :
    ∀ (k : Nat) (l : List α), (List.enumFrom k l).map (fun p => g p.2) = l.map g := by
  intro k l
  induction l generalizing k with
  | nil => rfl
  | cons a t ih => simp [List.enumFrom, ih]

-- ============================================================================
-- Serialized block lines and invariants
-- ============================================================================

/-- The lines of the serialization of a single parse-produced block. -/
def blockLines : Node → List Str
  | .document _ => []
  | .heading level runs _ => [repChar '#' level ++ ' ' :: runsText runs]
  | .paragraph runs _ => [runsText runs]
  | .list _ items _ => items.map (fun it => '-' :: ' ' :: runsText it.content)
  | .codeBlock language code _ => ("```".data ++ language) :: splitNL code ++ ["```".data]
  | .image path altText _ _ => ["![".data ++ altText ++ "](".data ++ path ++ ")".data]
  | .divider => ["---".data]
  | .pageBreak => ["===".data]

/-- Blank-line interleaving of the per-block line lists (the `"\n\n"` block
separator of `serialize_content`, viewed at the line level). -/
def interBlank : List (List Str) → List Str
  | [] => []
  | [x] => x
  | x :: xs => x ++ [] :: interBlank xs

/-- Structure of every block that `parse_content` can emit. -/
def BlockInv : Node → Prop
  | .document _ => False
  | .divider => False
  | .heading level runs style =>
      level < 256 ∧ style = headingStyle level ∧
      ∃ t, runs = [TextRun.new t (arLang t) (headingStyle level)] ∧ rtrim t = t ∧ '\n' ∉ t
  | .paragraph runs style =>
      ∃ t, runs = [TextRun.new t (arLang t) (paraStyle t)] ∧ style = paraStyle t ∧
        rtrim t = t ∧ '\n' ∉ t ∧ t ≠ [] ∧
        startsWithC t '#' = false ∧ startsWithS t "```".data = false ∧
        startsWithC t '-' = false ∧ startsWithC t '•' = false ∧
        t ≠ "---".data ∧ t ≠ "===".data ∧
        (startsWithS t "![".data = true →
          findSub t "](".data = none ∨ findChar t ')' = none)
  | .list ordered items style =>
      ordered = false ∧ style = "list".data ∧ items ≠ [] ∧
      ∀ it ∈ items, ∃ t, it = ⟨[TextRun.new t (arLang t) "paragraph".data]⟩ ∧
        rtrim t = t ∧ '\n' ∉ t
  | .codeBlock language code style =>
      style = "code".data ∧ language ≠ [] ∧ rtrim language = language ∧ '\n' ∉ language ∧
      ∀ l ∈ splitNL code, isFence l = false
  | .image path altText w h =>
      w = none ∧ h = none ∧ '\n' ∉ altText ∧ '\n' ∉ path ∧ ')' ∉ altText ∧ ')' ∉ path ∧
      ∀ j, ¬ ("](".data <+: altText.drop j)
  | .pageBreak => True

/-- The conditions beyond `BlockInv` under which a parse-produced block
survives the serialize-reparse round trip: no zero heading level (a leading
`'#'` count that is a multiple of 256), no code-fence language token starting
with a backtick, and no code line ending in a carriage return. -/
def goodBlock : Node → Bool
  | .heading level _ _ => decide (0 < level)
  | .codeBlock language code _ =>
      !(startsWithC language '`') &&
        (splitNL code).all (fun l => !(l.getLast? == some '\r'))
  | _ => true

/-- `goodBlock` across a document's children. -/
def goodDoc : Node → Bool
  | .document children => children.all goodBlock
  | b => goodBlock b

-- ============================================================================
-- Additional trim helpers
-- ============================================================================

theorem trimStart_ws_cons {c : Char} (x : Str) (hc : rustWS c = true) :
    trimStart (c :: x) = trimStart x := by
  simp [trimStart, List.dropWhile_cons, hc]

theorem trimEnd_append_nonws {c : Char} (l : Str) (hc : rustWS c = false) :
    trimEnd (l ++ [c]) = l ++ [c] := by
  show ((l ++ [c]).reverse.dropWhile rustWS).reverse = _
  simp [List.dropWhile_cons, hc]

theorem trimEnd_append_ws {c : Char} (l : Str) (hc : rustWS c = true) :
    trimEnd (l ++ [c]) = trimEnd l := by
  show ((l ++ [c]).reverse.dropWhile rustWS).reverse = _
  simp [List.dropWhile_cons, hc]
  rfl

theorem rtrim_ws_cons {c : Char} (x : Str) (hc : rustWS c = true) :
    rtrim (c :: x) = rtrim x := by
  unfold rtrim
  rw [trimStart_ws_cons x hc]

theorem rtrim_eq_of_rtrim_cons {t : Str} (h : rtrim t = t) :
    rtrim (' ' :: t) = t := by
  rw [rtrim_ws_cons t (by decide), h]

-- ============================================================================
-- parseB dispatch lemmas
-- ============================================================================

theorem parseB_blank (fuel : Nat) (l : Str) (rest : List Str) (h : rtrim l = []) :
    parseB (fuel + 1) (l :: rest) = parseB fuel rest := by
  simp only [parseB]
  rw [if_pos h]

/-- Shared shape of the hypothesis "the image branch fell through". -/
def NotImage (line : Str) : Prop :=
  startsWithS line "![".data = false ∨ findSub line "](".data = none ∨
    findChar line ')' = none

theorem parseB_image (fuel : Nat) (l : Str) (rest : List Str) (cb cp : Nat)
    (hne : rtrim l ≠ [])
    (him : startsWithS (rtrim l) "![".data = true)
    (hfs : findSub (rtrim l) "](".data = some cb)
    (hfc : findChar (rtrim l) ')' = some cp)
    (hok : 2 ≤ cb ∧ cb + 2 ≤ cp) :
    parseB (fuel + 1) (l :: rest) =
      ((Node.image (sliceStr (rtrim l) (cb + 2) cp) (sliceStr (rtrim l) 2 cb)
        none none) :: ·) <$> parseB fuel rest := by
  simp only [parseB]
  rw [if_neg hne, if_pos him]
  simp only [hfs, hfc]
  rw [if_pos hok]

theorem parseB_image_panic (fuel : Nat) (l : Str) (rest : List Str) (cb cp : Nat)
    (hne : rtrim l ≠ [])
    (him : startsWithS (rtrim l) "![".data = true)
    (hfs : findSub (rtrim l) "](".data = some cb)
    (hfc : findChar (rtrim l) ')' = some cp)
    (hbad : ¬ (2 ≤ cb ∧ cb + 2 ≤ cp)) :
    parseB (fuel + 1) (l :: rest) = none := by
  simp only [parseB]
  rw [if_neg hne, if_pos him]
  simp only [hfs, hfc]
  rw [if_neg hbad]

theorem parseB_heading (fuel : Nat) (l : Str) (rest : List Str)
    (hne : rtrim l ≠ [])
    (him : NotImage (rtrim l))
    (hh : startsWithC (rtrim l) '#' = true) :
    parseB (fuel + 1) (l :: rest) =
      ((Node.heading ((((rtrim l).takeWhile (· == '#')).length) % 256)
          [TextRun.new (rtrim (trimStartMatches (rtrim l) '#'))
            (arLang (rtrim (trimStartMatches (rtrim l) '#')))
            (headingStyle ((((rtrim l).takeWhile (· == '#')).length) % 256))]
          (headingStyle ((((rtrim l).takeWhile (· == '#')).length) % 256))) :: ·) <$>
        parseB fuel rest := by
  simp only [parseB]
  rw [if_neg hne]
  rcases him with him | him | him
  · rw [if_neg (by simp [him])]
    rw [if_pos hh]
  · by_cases hsw : startsWithS (rtrim l) "![".data = true
    · rw [if_pos hsw]
      simp only [him]
      rw [if_pos hh]
    · rw [if_neg hsw, if_pos hh]
  · by_cases hsw : startsWithS (rtrim l) "![".data = true
    · rw [if_pos hsw]
      rcases hfs : findSub (rtrim l) "](".data with _ | cb
      · simp only [hfs]
        rw [if_pos hh]
      · simp only [hfs, him]
        rw [if_pos hh]
    · rw [if_neg hsw, if_pos hh]

theorem parseB_code (fuel : Nat) (l : Str) (rest : List Str)
    (hne : rtrim l ≠ [])
    (him : NotImage (rtrim l))
    (hh : startsWithC (rtrim l) '#' = false)
    (hf : startsWithS (rtrim l) "```".data = true) :
    parseB (fuel + 1) (l :: rest) =
      ((Node.codeBlock
          (if rtrim (trimStartMatches (rtrim l) '`') = [] then "text".data
           else rtrim (trimStartMatches (rtrim l) '`'))
          (joinSep "\n".data (rest.takeWhile (fun l2 => !isFence l2))) "code".data) :: ·) <$>
        parseB fuel ((rest.dropWhile (fun l2 => !isFence l2)).drop 1) := by
  simp only [parseB]
  rw [if_neg hne]
  rcases him with him | him | him
  · rw [if_neg (by simp [him]), if_neg (by simp [hh]), if_pos hf]
  · by_cases hsw : startsWithS (rtrim l) "![".data = true
    · rw [if_pos hsw]
      simp only [him]
      rw [if_neg (by simp [hh]), if_pos hf]
    · rw [if_neg hsw, if_neg (by simp [hh]), if_pos hf]
  · by_cases hsw : startsWithS (rtrim l) "![".data = true
    · rw [if_pos hsw]
      rcases hfs : findSub (rtrim l) "](".data with _ | cb
      · simp only [hfs]
        rw [if_neg (by simp [hh]), if_pos hf]
      · simp only [hfs, him]
        rw [if_neg (by simp [hh]), if_pos hf]
    · rw [if_neg hsw, if_neg (by simp [hh]), if_pos hf]

theorem parseB_list (fuel : Nat) (l : Str) (rest : List Str)
    (hne : rtrim l ≠ [])
    (him : NotImage (rtrim l))
    (hh : startsWithC (rtrim l) '#' = false)
    (hf : startsWithS (rtrim l) "```".data = false)
    (hb : (startsWithC (rtrim l) '-' || startsWithC (rtrim l) '•') = true) :
    parseB (fuel + 1) (l :: rest) =
      ((Node.list false (((l :: rest).takeWhile isBullet).map mkItem) "list".data) :: ·) <$>
        parseB fuel ((l :: rest).dropWhile isBullet) := by
  simp only [parseB]
  rw [if_neg hne]
  rcases him with him | him | him
  · rw [if_neg (by simp [him]), if_neg (by simp [hh]), if_neg (by simp [hf]), if_pos hb]
  · by_cases hsw : startsWithS (rtrim l) "![".data = true
    · rw [if_pos hsw]
      simp only [him]
      rw [if_neg (by simp [hh]), if_neg (by simp [hf]), if_pos hb]
    · rw [if_neg hsw, if_neg (by simp [hh]), if_neg (by simp [hf]), if_pos hb]
  · by_cases hsw : startsWithS (rtrim l) "![".data = true
    · rw [if_pos hsw]
      rcases hfs : findSub (rtrim l) "](".data with _ | cb
      · simp only [hfs]
        rw [if_neg (by simp [hh]), if_neg (by simp [hf]), if_pos hb]
      · simp only [hfs, him]
        rw [if_neg (by simp [hh]), if_neg (by simp [hf]), if_pos hb]
    · rw [if_neg hsw, if_neg (by simp [hh]), if_neg (by simp [hf]), if_pos hb]

theorem parseB_pageBreak (fuel : Nat) (l : Str) (rest : List Str)
    (hne : rtrim l ≠ [])
    (him : NotImage (rtrim l))
    (hh : startsWithC (rtrim l) '#' = false)
    (hf : startsWithS (rtrim l) "```".data = false)
    (hb : (startsWithC (rtrim l) '-' || startsWithC (rtrim l) '•') = false)
    (hd : rtrim l ≠ "---".data)
    (hp : rtrim l = "===".data) :
    parseB (fuel + 1) (l :: rest) = (Node.pageBreak :: ·) <$> parseB fuel rest := by
  simp only [parseB]
  rw [if_neg hne]
  rcases him with him | him | him
  · rw [if_neg (by simp [him]), if_neg (by simp [hh]), if_neg (by simp [hf]),
      if_neg (by simp [hb]), if_neg hd, if_pos hp]
  · by_cases hsw : startsWithS (rtrim l) "![".data = true
    · rw [if_pos hsw]
      simp only [him]
      rw [if_neg (by simp [hh]), if_neg (by simp [hf]), if_neg (by simp [hb]),
        if_neg hd, if_pos hp]
    · rw [if_neg hsw, if_neg (by simp [hh]), if_neg (by simp [hf]), if_neg (by simp [hb]),
        if_neg hd, if_pos hp]
  · by_cases hsw : startsWithS (rtrim l) "![".data = true
    · rw [if_pos hsw]
      rcases hfs : findSub (rtrim l) "](".data with _ | cb
      · simp only [hfs]
        rw [if_neg (by simp [hh]), if_neg (by simp [hf]), if_neg (by simp [hb]),
          if_neg hd, if_pos hp]
      · simp only [hfs, him]
        rw [if_neg (by simp [hh]), if_neg (by simp [hf]), if_neg (by simp [hb]),
          if_neg hd, if_pos hp]
    · rw [if_neg hsw, if_neg (by simp [hh]), if_neg (by simp [hf]), if_neg (by simp [hb]),
        if_neg hd, if_pos hp]

theorem parseB_paragraph (fuel : Nat) (l : Str) (rest : List Str)
    (hne : rtrim l ≠ [])
    (him : NotImage (rtrim l))
    (hh : startsWithC (rtrim l) '#' = false)
    (hf : startsWithS (rtrim l) "```".data = false)
    (hb : (startsWithC (rtrim l) '-' || startsWithC (rtrim l) '•') = false)
    (hd : rtrim l ≠ "---".data)
    (hp : rtrim l ≠ "===".data) :
    parseB (fuel + 1) (l :: rest) =
      ((Node.paragraph [TextRun.new (rtrim l) (arLang (rtrim l)) (paraStyle (rtrim l))]
          (paraStyle (rtrim l))) :: ·) <$> parseB fuel rest := by
  simp only [parseB]
  rw [if_neg hne]
  rcases him with him | him | him
  · rw [if_neg (by simp [him]), if_neg (by simp [hh]), if_neg (by simp [hf]),
      if_neg (by simp [hb]), if_neg hd, if_neg hp]
  · by_cases hsw : startsWithS (rtrim l) "![".data = true
    · rw [if_pos hsw]
      simp only [him]
      rw [if_neg (by simp [hh]), if_neg (by simp [hf]), if_neg (by simp [hb]),
        if_neg hd, if_neg hp]
    · rw [if_neg hsw, if_neg (by simp [hh]), if_neg (by simp [hf]), if_neg (by simp [hb]),
        if_neg hd, if_neg hp]
  · by_cases hsw : startsWithS (rtrim l) "![".data = true
    · rw [if_pos hsw]
      rcases hfs : findSub (rtrim l) "](".data with _ | cb
      · simp only [hfs]
        rw [if_neg (by simp [hh]), if_neg (by simp [hf]), if_neg (by simp [hb]),
          if_neg hd, if_neg hp]
      · simp only [hfs, him]
        rw [if_neg (by simp [hh]), if_neg (by simp [hf]), if_neg (by simp [hb]),
          if_neg hd, if_neg hp]
    · rw [if_neg hsw, if_neg (by simp [hh]), if_neg (by simp [hf]), if_neg (by simp [hb]),
        if_neg hd, if_neg hp]

-- ============================================================================
-- Consumption lemmas: parsing the serialized lines of one block
-- ============================================================================

theorem takeWhile_replicate_self (c : Char) (n : Nat) :
    (List.replicate n c).takeWhile (· == c) = List.replicate n c := by
  induction n with
  | zero => rfl
  | succ m ih => simp [List.replicate_succ, List.takeWhile_cons, ih]

theorem dropWhile_replicate_self (c : Char) (n : Nat) :
    (List.replicate n c).dropWhile (· == c) = [] := by
  induction n with
  | zero => rfl
  | succ m ih => simp [List.replicate_succ, List.dropWhile_cons, ih]

theorem replicate_all_eq (c : Char) (n : Nat) :
    ∀ a ∈ List.replicate n c, (a == c) = true := by
  intro a ha
  rw [List.eq_of_mem_replicate ha]
  simp

/-- Parsing one heading line with an arbitrary leading-`'#'` count: the level
is stored reduced modulo 256 (the `as u8` cast). -/
theorem consume_heading_raw (fuel : Nat) (tail : List Str) (level : Nat) (t : Str)
    (hlev : 0 < level) (ht : rtrim t = t) :
    parseB (fuel + 1) ((repChar '#' level ++ ' ' :: t) :: tail) =
      ((Node.heading (level % 256)
        [TextRun.new t (arLang t) (headingStyle (level % 256))]
        (headingStyle (level % 256))) :: ·) <$> parseB fuel tail := by
  rcases level with _ | m
  · omega
  have hrep : repChar '#' (m + 1) = '#' :: List.replicate m '#' := by
    simp [repChar, List.replicate_succ]
  rcases List.eq_nil_or_concat t with rfl | ⟨t0, d, rfl⟩
  · -- empty heading text: the line is `#…# ` and trims to `#…#`
    have hline : rtrim (repChar '#' (m + 1) ++ [' ']) = repChar '#' (m + 1) := by
      unfold rtrim
      rw [hrep]
      rw [List.cons_append, trimStart_cons_neg _ (by decide)]
      rw [← List.cons_append, ← hrep, trimEnd_append_ws _ (by decide)]
      rw [show (repChar '#' (m + 1) : Str) = List.replicate m '#' ++ ['#'] from by
        simp [repChar, List.replicate_succ']]
      exact trimEnd_append_nonws _ (by decide)
    rw [parseB_heading fuel _ tail
      (by rw [hline, hrep]; simp)
      (Or.inl (by rw [hline, hrep]; simp [startsWithS, List.isPrefixOf]))
      (by rw [hline, hrep]; simp [startsWithC])]
    rw [hline]
    rw [show repChar '#' (m + 1) = List.replicate (m + 1) '#' from rfl]
    rw [takeWhile_replicate_self '#' (m + 1)]
    rw [show trimStartMatches (List.replicate (m + 1) '#') '#' =
      (List.replicate (m + 1) '#').dropWhile (· == '#') from rfl]
    rw [dropWhile_replicate_self '#' (m + 1)]
    simp only [List.length_replicate]
    rfl
  · -- nonempty heading text ending in a non-whitespace character
    simp only [List.concat_eq_append] at ht ⊢
    have hd : rustWS d = false :=
      trimmed_last ht (by simp)
    have hline : rtrim (repChar '#' (m + 1) ++ ' ' :: (t0 ++ [d])) =
        repChar '#' (m + 1) ++ ' ' :: (t0 ++ [d]) := by
      have hshape : repChar '#' (m + 1) ++ ' ' :: (t0 ++ [d]) =
          '#' :: ((List.replicate m '#' ++ ' ' :: t0) ++ [d]) := by
        rw [hrep]
        simp
      rw [hshape]
      rw [rtrim_eq_self_of_ends _ (by decide) hd]
    rw [parseB_heading fuel _ tail
      (by rw [hline, hrep]; simp)
      (Or.inl (by rw [hline, hrep]; simp [startsWithS, List.isPrefixOf]))
      (by rw [hline, hrep]; simp [startsWithC])]
    rw [hline]
    have htake : (repChar '#' (m + 1) ++ ' ' :: (t0 ++ [d])).takeWhile (· == '#') =
        List.replicate (m + 1) '#' :=
      takeWhile_app _ _ _ (replicate_all_eq '#' (m + 1))
        (fun b hb => by cases hb; decide)
    have hdrop : (repChar '#' (m + 1) ++ ' ' :: (t0 ++ [d])).dropWhile (· == '#') =
        ' ' :: (t0 ++ [d]) :=
      dropWhile_app _ _ _ (replicate_all_eq '#' (m + 1))
        (fun b hb => by cases hb; decide)
    rw [htake]
    rw [show trimStartMatches (repChar '#' (m + 1) ++ ' ' :: (t0 ++ [d])) '#' =
      (repChar '#' (m + 1) ++ ' ' :: (t0 ++ [d])).dropWhile (· == '#') from rfl]
    rw [hdrop, rtrim_eq_of_rtrim_cons ht]
    simp only [List.length_replicate]

/-- Parsing one serialized heading line (level already below 256). -/
theorem consume_heading (fuel : Nat) (tail : List Str) (level : Nat) (t : Str)
    (hlev : 0 < level) (hlev2 : level < 256) (ht : rtrim t = t) :
    parseB (fuel + 1) ((repChar '#' level ++ ' ' :: t) :: tail) =
      ((Node.heading level [TextRun.new t (arLang t) (headingStyle level)]
        (headingStyle level)) :: ·) <$> parseB fuel tail := by
  have h := consume_heading_raw fuel tail level t hlev ht
  rwa [Nat.mod_eq_of_lt hlev2] at h

/-- Parsing one serialized paragraph line. -/
theorem consume_paragraph (fuel : Nat) (tail : List Str) (t : Str)
    (ht : rtrim t = t) (hne : t ≠ [])
    (hh : startsWithC t '#' = false) (hf : startsWithS t "```".data = false)
    (hd1 : startsWithC t '-' = false) (hd2 : startsWithC t '•' = false)
    (hd : t ≠ "---".data) (hp : t ≠ "===".data)
    (him : NotImage t) :
    parseB (fuel + 1) (t :: tail) =
      ((Node.paragraph [TextRun.new t (arLang t) (paraStyle t)] (paraStyle t)) :: ·) <$>
        parseB fuel tail := by
  rw [parseB_paragraph fuel t tail (by rw [ht]; exact hne) (by rw [ht]; exact him)
    (by rw [ht]; exact hh) (by rw [ht]; exact hf)
    (by rw [ht]; simp [hd1, hd2]) (by rw [ht]; exact hd) (by rw [ht]; exact hp)]
  rw [ht]

/-- Parsing one serialized page break line. -/
theorem consume_pageBreak (fuel : Nat) (tail : List Str) :
    parseB (fuel + 1) ("===".data :: tail) =
      (Node.pageBreak :: ·) <$> parseB fuel tail := by
  exact parseB_pageBreak fuel _ tail (by decide) (Or.inl (by decide)) (by decide)
    (by decide) (by decide) (by decide) (by decide)

theorem prefix_of_append_of_le {α : Type} {pat a : List α} (b : List α)
    (h : pat <+: a ++ b) (hle : pat.length ≤ a.length) : pat <+: a := by
  rw [List.prefix_iff_eq_take] at h ⊢
  rwa [List.take_append_of_le_length hle] at h

theorem not_bracket_prefix_cons {c : Char} (xs : Str) (h : (']' : Char) ≠ c) :
    ¬ ("](".data <+: (c :: xs)) := by
  intro hp
  rcases hp with ⟨r, hr⟩
  simp only [List.cons_append] at hr
  injection hr with h1 _
  exact h h1

/-- Parsing one serialized image line. -/
theorem consume_image (fuel : Nat) (tail : List Str) (path alt : Str)
    (hpa : ')' ∉ alt) (hpp : ')' ∉ path)
    (hsub : ∀ j, ¬ ("](".data <+: alt.drop j)) :
    parseB (fuel + 1) (("![".data ++ alt ++ "](".data ++ path ++ ")".data) :: tail) =
      ((Node.image path alt none none) :: ·) <$> parseB fuel tail := by
  rw [show ("![".data ++ alt ++ "](".data ++ path ++ ")".data : Str) =
    '!' :: '[' :: (alt ++ (']' :: '(' :: (path ++ [')']))) from by simp]
  have hR : (']' :: '(' :: (path ++ [')']) : Str) = "](".data ++ (path ++ [')']) := rfl
  have hdrop2 : ('!' :: '[' :: (alt ++ (']' :: '(' :: (path ++ [')']))) : Str).drop 2 =
      alt ++ (']' :: '(' :: (path ++ [')'])) := rfl
  have hline : rtrim ('!' :: '[' :: (alt ++ (']' :: '(' :: (path ++ [')'])))) =
      '!' :: '[' :: (alt ++ (']' :: '(' :: (path ++ [')']))) := by
    rw [show ('!' :: '[' :: (alt ++ (']' :: '(' :: (path ++ [')']))) : Str) =
      '!' :: (('[' :: (alt ++ (']' :: '(' :: path))) ++ [')']) from by simp]
    rw [rtrim_eq_self_of_ends _ (by decide) (by decide)]
  have him : startsWithS ('!' :: '[' :: (alt ++ (']' :: '(' :: (path ++ [')']))))
      "![".data = true := by
    simp [startsWithS, show "![".data = ['!', '['] from rfl, List.isPrefixOf]
  have hfs : findSub ('!' :: '[' :: (alt ++ (']' :: '(' :: (path ++ [')']))))
      "](".data = some (2 + alt.length) := by
    apply findSub_of_min
    · rw [← List.drop_drop, hdrop2, List.drop_left]
      exact ⟨path ++ [')'], rfl⟩
    · intro j hj
      rcases j with _ | j
      · rw [List.drop_zero]
        exact not_bracket_prefix_cons _ (by decide)
      rcases j with _ | j'
      · rw [show (('!' :: '[' :: (alt ++ (']' :: '(' :: (path ++ [')']))) : Str)).drop 1 =
          '[' :: (alt ++ (']' :: '(' :: (path ++ [')']))) from rfl]
        exact not_bracket_prefix_cons _ (by decide)
      · have hj' : j' < alt.length := by omega
        have hdropj : (('!' :: '[' :: (alt ++ (']' :: '(' :: (path ++ [')']))) : Str)).drop
            (j' + 1 + 1) = alt.drop j' ++ (']' :: '(' :: (path ++ [')'])) := by
          rw [show (j' + 1 + 1 : Nat) = 2 + j' from by omega]
          rw [← List.drop_drop, hdrop2, List.drop_append_eq_append_drop]
          rw [show j' - alt.length = 0 from by omega, List.drop_zero]
        rw [hdropj]
        intro hp
        rcases Nat.lt_or_ge (alt.drop j').length 2 with hlt | hge
        · have hlen1 : (alt.drop j').length = 1 := by
            rw [List.length_drop] at hlt ⊢
            omega
          rcases List.length_eq_one.mp hlen1 with ⟨x, hx⟩
          rw [hx] at hp
          rcases hp with ⟨r, hr⟩
          simp only [List.cons_append, List.singleton_append, List.nil_append,
            show "](".data = [']', '('] from rfl] at hr
          injection hr with h1 h2
          injection h2 with h3 _
          exact absurd h3 (by decide)
        · exact hsub j' (prefix_of_append_of_le _ hp (by
            simpa [show "](".data = [']', '('] from rfl] using hge))
  have hfc : findChar ('!' :: '[' :: (alt ++ (']' :: '(' :: (path ++ [')']))))
      ')' = some (2 + alt.length + (2 + path.length)) := by
    have hsplit : ('!' :: '[' :: (alt ++ (']' :: '(' :: (path ++ [')']))) : Str) =
        ('!' :: '[' :: (alt ++ (']' :: '(' :: path))) ++ ')' :: [] := by simp
    have hnotin : ')' ∉ ('!' :: '[' :: (alt ++ (']' :: '(' :: path)) : Str) := by
      intro hm
      rcases List.mem_cons.mp hm with h | hm
      · exact absurd h (by decide)
      rcases List.mem_cons.mp hm with h | hm
      · exact absurd h (by decide)
      rcases List.mem_append.mp hm with hm | hm
      · exact hpa hm
      rcases List.mem_cons.mp hm with h | hm
      · exact absurd h (by decide)
      rcases List.mem_cons.mp hm with h | hm
      · exact absurd h (by decide)
      · exact hpp hm
    rw [hsplit, findChar_of_split _ _ _ hnotin]
    congr 1
    simp
    omega
  rw [parseB_image fuel _ tail (2 + alt.length) (2 + alt.length + (2 + path.length))
    (by rw [hline]; simp) (by rw [hline]; exact him) (by rw [hline]; exact hfs)
    (by rw [hline]; exact hfc) (by omega)]
  rw [hline]
  have hslice_alt : sliceStr ('!' :: '[' :: (alt ++ (']' :: '(' :: (path ++ [')']))))
      2 (2 + alt.length) = alt := by
    unfold sliceStr
    rw [hdrop2, show 2 + alt.length - 2 = alt.length from by omega, List.take_left]
  have hslice_path : sliceStr ('!' :: '[' :: (alt ++ (']' :: '(' :: (path ++ [')']))))
      (2 + alt.length + 2) (2 + alt.length + (2 + path.length)) = path := by
    unfold sliceStr
    have hd4 : (('!' :: '[' :: (alt ++ (']' :: '(' :: (path ++ [')']))) : Str)).drop
        (2 + alt.length + 2) = path ++ [')'] := by
      rw [← List.drop_drop]
      rw [← List.drop_drop, hdrop2, List.drop_left]
      rfl
    rw [hd4, show 2 + alt.length + (2 + path.length) - (2 + alt.length + 2) = path.length
      from by omega, List.take_left]
  rw [hslice_alt, hslice_path]

/-- Parsing the serialized lines of one code block. -/
theorem consume_code (fuel : Nat) (tail : List Str) (language code : Str)
    (hlne : language ≠ []) (hltr : rtrim language = language)
    (hback : startsWithC language '`' = false)
    (hcl : ∀ l ∈ splitNL code, isFence l = false) :
    parseB (fuel + 1) (("```".data ++ language) :: (splitNL code ++ "```".data :: tail)) =
      ((Node.codeBlock language code "code".data) :: ·) <$> parseB fuel tail := by
  rcases List.eq_nil_or_concat language with rfl | ⟨l0, d, hcat⟩
  · exact absurd rfl hlne
  rw [List.concat_eq_append] at hcat
  have hd : rustWS d = false := trimmed_last hltr (by rw [hcat]; simp)
  have hline : rtrim ("```".data ++ language) = "```".data ++ language := by
    rw [hcat]
    rw [show ("```".data ++ (l0 ++ [d]) : Str) =
      '`' :: (('`' :: '`' :: l0) ++ [d]) from by
        simp [show "```".data = ['`', '`', '`'] from rfl]]
    rw [rtrim_eq_self_of_ends _ (by decide) hd]
  have hlhead : ∀ b, language.head? = some b → (b == '`') = false := by
    intro b hb
    rcases language with _ | ⟨h, t⟩
    · simp at hb
    · simp at hb
      subst hb
      simpa [startsWithC] using hback
  have hdw : ("```".data ++ language).dropWhile (· == '`') = language := by
    rw [show "```".data = ['`', '`', '`'] from rfl]
    exact dropWhile_app _ _ _ (by intro a ha; fin_cases ha <;> rfl) hlhead
  rw [parseB_code fuel _ _
    (by rw [hline]; simp [show "```".data = ['`', '`', '`'] from rfl])
    (Or.inl (by
      rw [hline, show "```".data = ['`', '`', '`'] from rfl]
      simp [startsWithS, show "![".data = ['!', '['] from rfl, List.isPrefixOf]))
    (by rw [hline, show "```".data = ['`', '`', '`'] from rfl]; simp [startsWithC])
    (by
      rw [hline]
      show ("```".data.isPrefixOf ("```".data ++ language)) = true
      rw [List.isPrefixOf_iff_prefix]
      exact List.prefix_append _ _)]
  rw [hline]
  rw [show trimStartMatches ("```".data ++ language) '`' =
    ("```".data ++ language).dropWhile (· == '`') from rfl]
  rw [hdw, hltr, if_neg hlne]
  have htake : (splitNL code ++ "```".data :: tail).takeWhile (fun l2 => !isFence l2) =
      splitNL code :=
    takeWhile_app _ _ _ (fun a ha => by rw [hcl a ha]; rfl)
      (fun b hb => by cases hb; decide)
  have hdrop : (splitNL code ++ "```".data :: tail).dropWhile (fun l2 => !isFence l2) =
      "```".data :: tail :=
    dropWhile_app _ _ _ (fun a ha => by rw [hcl a ha]; rfl)
      (fun b hb => by cases hb; decide)
  rw [htake, hdrop, joinSep_splitNL]
  rfl

/-- The trim of a serialized list-item line. -/
theorem item_line_rtrim (t : Str) (ht : rtrim t = t) :
    rtrim ('-' :: ' ' :: t) = if t = [] then ['-'] else '-' :: ' ' :: t := by
  rcases List.eq_nil_or_concat t with rfl | ⟨t0, d, hcat⟩
  · rw [if_pos rfl]
    decide
  · rw [List.concat_eq_append] at hcat
    have hd : rustWS d = false := trimmed_last ht (by rw [hcat]; simp)
    rw [if_neg (by rw [hcat]; simp)]
    rw [hcat]
    rw [show ('-' :: ' ' :: (t0 ++ [d]) : Str) = '-' :: ((' ' :: t0) ++ [d]) from by simp]
    rw [rtrim_eq_self_of_ends _ (by decide) hd]

theorem item_line_isBullet (t : Str) (ht : rtrim t = t) :
    isBullet ('-' :: ' ' :: t) = true := by
  unfold isBullet
  rw [item_line_rtrim t ht]
  by_cases h : t = []
  · rw [if_pos h]
    rfl
  · rw [if_neg h]
    rfl

theorem item_line_mkItem (t : Str) (ht : rtrim t = t) :
    mkItem ('-' :: ' ' :: t) = ⟨[TextRun.new t (arLang t) "paragraph".data]⟩ := by
  unfold mkItem
  rw [item_line_rtrim t ht]
  by_cases h : t = []
  · rw [if_pos h, h]
    rfl
  · rw [if_neg h]
    rw [show trimStartMatches ('-' :: ' ' :: t) '-' =
      (('-' :: ' ' :: t : Str)).dropWhile (· == '-') from rfl]
    rw [show (('-' :: ' ' :: t : Str)).dropWhile (· == '-') = ' ' :: t from by
      simp [List.dropWhile_cons]]
    rw [show trimStartMatches (' ' :: t) '•' = ((' ' :: t : Str)).dropWhile (· == '•') from rfl]
    rw [show ((' ' :: t : Str)).dropWhile (· == '•') = ' ' :: t from by
      simp [List.dropWhile_cons]]
    rw [rtrim_eq_of_rtrim_cons ht]

/-- Parsing the serialized lines of one (unordered) list block. -/
theorem consume_list (fuel : Nat) (tail : List Str) (ts : List Str)
    (hts : ts ≠ []) (htr : ∀ t ∈ ts, rtrim t = t)
    (htail : ∀ x, tail.head? = some x → isBullet x = false) :
    parseB (fuel + 1) ((ts.map (fun t => '-' :: ' ' :: t)) ++ tail) =
      ((Node.list false
        (ts.map (fun t => ListItem.mk [TextRun.new t (arLang t) "paragraph".data]))
        "list".data) :: ·) <$> parseB fuel tail := by
  rcases ts with _ | ⟨t0, ts'⟩
  · exact absurd rfl hts
  have ht0 : rtrim t0 = t0 := htr t0 (by simp)
  have hl0 : rtrim ('-' :: ' ' :: t0) = if t0 = [] then ['-'] else '-' :: ' ' :: t0 :=
    item_line_rtrim t0 ht0
  simp only [List.map_cons, List.cons_append]
  have hbranch : ∀ (P : Str → Prop),
      (P ['-']) → (P ('-' :: ' ' :: t0)) → P (rtrim ('-' :: ' ' :: t0)) := by
    intro P h1 h2
    rw [hl0]
    by_cases h : t0 = []
    · rw [if_pos h]; exact h1
    · rw [if_neg h]; exact h2
  rw [parseB_list fuel _ _
    (hbranch (· ≠ []) (by simp) (by simp))
    (Or.inl (hbranch (startsWithS · "![".data = false)
      (by simp [startsWithS, show "![".data = ['!', '['] from rfl, List.isPrefixOf])
      (by simp [startsWithS, show "![".data = ['!', '['] from rfl, List.isPrefixOf])))
    (hbranch (startsWithC · '#' = false) (by rfl) (by rfl))
    (hbranch (startsWithS · "```".data = false)
      (by simp [startsWithS, show "```".data = ['`', '`', '`'] from rfl, List.isPrefixOf])
      (by simp [startsWithS, show "```".data = ['`', '`', '`'] from rfl, List.isPrefixOf]))
    (by
      have : startsWithC (rtrim ('-' :: ' ' :: t0)) '-' = true :=
        hbranch (startsWithC · '-' = true) (by rfl) (by rfl)
      rw [this]
      rfl)]
  have htw : (('-' :: ' ' :: t0) :: (ts'.map (fun t => '-' :: ' ' :: t) ++ tail)).takeWhile
      isBullet = ('-' :: ' ' :: t0) :: ts'.map (fun t => '-' :: ' ' :: t) := by
    rw [show (('-' :: ' ' :: t0) :: (ts'.map (fun t => '-' :: ' ' :: t) ++ tail) : List Str) =
      ((('-' :: ' ' :: t0) :: ts'.map (fun t => '-' :: ' ' :: t)) ++ tail) from by simp]
    apply takeWhile_app
    · intro a ha
      rcases List.mem_cons.mp ha with rfl | ha
      · exact item_line_isBullet t0 ht0
      · rcases List.mem_map.mp ha with ⟨t, htm, rfl⟩
        exact item_line_isBullet t (htr t (by simp [htm]))
    · exact htail
  have hdw : (('-' :: ' ' :: t0) :: (ts'.map (fun t => '-' :: ' ' :: t) ++ tail)).dropWhile
      isBullet = tail := by
    rw [show (('-' :: ' ' :: t0) :: (ts'.map (fun t => '-' :: ' ' :: t) ++ tail) : List Str) =
      ((('-' :: ' ' :: t0) :: ts'.map (fun t => '-' :: ' ' :: t)) ++ tail) from by simp]
    apply dropWhile_app
    · intro a ha
      rcases List.mem_cons.mp ha with rfl | ha
      · exact item_line_isBullet t0 ht0
      · rcases List.mem_map.mp ha with ⟨t, htm, rfl⟩
        exact item_line_isBullet t (htr t (by simp [htm]))
    · exact htail
  rw [htw, hdw]
  have hmap : ((('-' :: ' ' :: t0) :: ts'.map (fun t => '-' :: ' ' :: t)).map mkItem) =
      (t0 :: ts').map (fun t => ListItem.mk [TextRun.new t (arLang t) "paragraph".data]) := by
    simp only [List.map_cons, List.map_map]
    rw [item_line_mkItem t0 ht0]
    congr 1
    apply List.map_congr_left
    intro t htm
    show mkItem ('-' :: ' ' :: t) = _
    exact item_line_mkItem t (htr t (by simp [htm]))
  rw [hmap]
  rfl

theorem exists_ts : ∀ (items : List ListItem),
    (∀ it ∈ items, ∃ t, it = ⟨[TextRun.new t (arLang t) "paragraph".data]⟩ ∧
      rtrim t = t ∧ '\n' ∉ t) →
    ∃ ts : List Str,
      items = ts.map (fun t => ListItem.mk [TextRun.new t (arLang t) "paragraph".data]) ∧
      ∀ t ∈ ts, rtrim t = t ∧ '\n' ∉ t := by
  intro items
  induction items with
  | nil => exact fun _ => ⟨[], rfl, by simp⟩
  | cons it rest ih =>
    intro h
    rcases h it (by simp) with ⟨t, hit, htr, hnl⟩
    rcases ih (fun x hx => h x (by simp [hx])) with ⟨ts, hrest, hts⟩
    refine ⟨t :: ts, ?_, ?_⟩
    · rw [List.map_cons, ← hit, ← hrest]
    · intro x hx
      rcases List.mem_cons.mp hx with rfl | hx
      · exact ⟨htr, hnl⟩
      · exact hts x hx

/-- Parsing the serialized lines of any parse-produced block consumes exactly
those lines and reconstructs the block. -/
theorem consume_block (fuel : Nat) (b : Node) (tail : List Str)
    (hinv : BlockInv b) (hgood : goodBlock b = true)
    (htail : ∀ x, tail.head? = some x → isBullet x = false) :
    parseB (fuel + 1) (blockLines b ++ tail) = (b :: ·) <$> parseB fuel tail := by
  cases b with
  | document children => exact absurd hinv (by simp [BlockInv])
  | divider => exact absurd hinv (by simp [BlockInv])
  | heading level runs style =>
    obtain ⟨hlev2, hstyle, t, hruns, htr, _⟩ := hinv
    have hlev : 0 < level := by simpa [goodBlock] using hgood
    subst hstyle
    subst hruns
    show parseB (fuel + 1) ((repChar '#' level ++ ' ' :: t) :: tail) = _
    exact consume_heading fuel tail level t hlev hlev2 htr
  | paragraph runs style =>
    obtain ⟨t, hruns, hstyle, htr, _, hne, h1, h2, h3, h4, h5, h6, him'⟩ := hinv
    subst hstyle
    subst hruns
    show parseB (fuel + 1) (t :: tail) = _
    apply consume_paragraph fuel tail t htr hne h1 h2 h3 h4 h5 h6
    by_cases hsw : startsWithS t "![".data = true
    · rcases him' hsw with h | h
      · exact Or.inr (Or.inl h)
      · exact Or.inr (Or.inr h)
    · exact Or.inl (by simpa using hsw)
  | list ordered items style =>
    obtain ⟨hord, hstyle, hne, hitems⟩ := hinv
    subst hord
    subst hstyle
    rcases exists_ts items hitems with ⟨ts, rfl, hts⟩
    have htsne : ts ≠ [] := by
      intro h
      rw [h] at hne
      exact hne rfl
    show parseB (fuel + 1)
      (((ts.map (fun t => ListItem.mk [TextRun.new t (arLang t) "paragraph".data])).map
        (fun it => '-' :: ' ' :: runsText it.content)) ++ tail) = _
    rw [List.map_map]
    rw [show ((fun it : ListItem => '-' :: ' ' :: runsText it.content) ∘
      (fun t => ListItem.mk [TextRun.new t (arLang t) "paragraph".data])) =
      (fun t => '-' :: ' ' :: t) from rfl]
    exact consume_list fuel tail ts htsne (fun t ht => (hts t ht).1) htail
  | codeBlock language code style =>
    obtain ⟨hstyle, hlne, hltr, _, hcl⟩ := hinv
    subst hstyle
    have hback : startsWithC language '`' = false := by
      simp only [goodBlock, Bool.and_eq_true, Bool.not_eq_eq_eq_not, Bool.not_true] at hgood
      exact hgood.1
    show parseB (fuel + 1) ((("```".data ++ language) :: (splitNL code ++ ["```".data])) ++ tail) = _
    rw [show ((("```".data ++ language) :: (splitNL code ++ ["```".data])) ++ tail :
      List Str) = ("```".data ++ language) :: (splitNL code ++ "```".data :: tail) from by simp]
    exact consume_code fuel tail language code hlne hltr hback hcl
  | image path altText w h =>
    obtain ⟨hw, hh, _, _, hpa, hpp, hsub⟩ := hinv
    subst hw
    subst hh
    show parseB (fuel + 1) (("![".data ++ altText ++ "](".data ++ path ++ ")".data) :: tail) = _
    exact consume_image fuel tail path altText hpa hpp hsub
  | pageBreak =>
    exact consume_pageBreak fuel tail

/-- Reparsing the line-level serialization of a good block list recovers it. -/
theorem parse_blocks_round (bs : List Node) : ∀ fuel, 2 * bs.length < fuel →
    (∀ b ∈ bs, BlockInv b ∧ goodBlock b = true) →
    parseB fuel (interBlank (bs.map blockLines)) = some bs := by
  induction bs with
  | nil =>
    intro fuel hf _
    rcases fuel with _ | f
    · omega
    rfl
  | cons b bs' ih =>
    intro fuel hf hinv
    rcases fuel with _ | f
    · omega
    rcases bs' with _ | ⟨b2, bs''⟩
    · show parseB (f + 1) (interBlank [blockLines b]) = _
      rw [show interBlank [blockLines b] = blockLines b ++ [] from by simp [interBlank]]
      rw [consume_block f b [] (hinv b (by simp)).1 (hinv b (by simp)).2
        (fun x hx => by simp at hx)]
      rcases f with _ | g
      · simp at hf
      rfl
    · show parseB (f + 1) (interBlank (blockLines b :: (b2 :: bs'').map blockLines)) = _
      rw [show interBlank (blockLines b :: (b2 :: bs'').map blockLines) =
        blockLines b ++ ([] :: interBlank ((b2 :: bs'').map blockLines)) from rfl]
      rw [consume_block f b _ (hinv b (by simp)).1 (hinv b (by simp)).2
        (fun x hx => by
          simp at hx
          rw [hx]
          rfl)]
      rcases f with _ | g
      · simp at hf
      rw [parseB_blank g [] _ rfl]
      rw [ih g (by simp at hf ⊢; omega) (fun b' hb' => hinv b' (by simp [hb']))]
      rfl

theorem serializeChildren_eq_map (ns : List Node) :
    serializeChildren ns = ns.map serialize_content := by
  induction ns with
  | nil => rfl
  | cons n t ih => simp [serializeChildren, ih]

/-- Joining a block's lines with `"\n"` recovers its serialization. -/
theorem blockLines_join (b : Node) (hinv : BlockInv b) :
    joinSep "\n".data (blockLines b) = serialize_content b := by
  cases b with
  | document children => exact absurd hinv (by simp [BlockInv])
  | divider => exact absurd hinv (by simp [BlockInv])
  | heading level runs style => rfl
  | paragraph runs style => rfl
  | image path altText w h => rfl
  | pageBreak => rfl
  | list ordered items style =>
    obtain ⟨hord, -, -, -⟩ := hinv
    subst hord
    show joinSep "\n".data (items.map fun it => '-' :: ' ' :: runsText it.content) =
      joinSep "\n".data (items.enum.map fun p =>
        (if (false : Bool) then natStr (p.1 + 1) ++ ".".data else "-".data) ++
          ' ' :: joinSep " ".data (p.2.content.map (·.text)))
    congr 1
    rw [show List.enum items = List.enumFrom 0 items from rfl,
      ← enumFrom_map_snd (fun it => '-' :: ' ' :: runsText it.content) 0 items]
    apply List.map_congr_left
    intro p hp
    simp [runsText]
  | codeBlock language code style =>
    show joinSep "\n".data (("```".data ++ language) :: (splitNL code ++ ["```".data])) = _
    rw [joinSep_cons _ _ _ (by
      intro h
      exact absurd (List.append_eq_nil.mp h).1 (splitNL_ne_nil code))]
    rw [joinSep_append _ _ _ (splitNL_ne_nil code) (by simp)]
    rw [joinSep_splitNL]
    show _ = "```".data ++ language ++ '\n' :: code ++ '\n' :: "```".data
    simp [joinSep]

theorem blockLines_ne_nil (b : Node) (hinv : BlockInv b) : blockLines b ≠ [] := by
  cases b with
  | document children => exact absurd hinv (by simp [BlockInv])
  | divider => exact absurd hinv (by simp [BlockInv])
  | heading level runs style => simp [blockLines]
  | paragraph runs style => simp [blockLines]
  | image path altText w h => simp [blockLines]
  | pageBreak => simp [blockLines]
  | codeBlock language code style => simp [blockLines]
  | list ordered items style =>
    obtain ⟨-, -, hne, -⟩ := hinv
    simpa [blockLines] using hne

/-- No serialized block line contains a newline. -/
theorem blockLines_nl (b : Node) (hinv : BlockInv b) :
    ∀ l ∈ blockLines b, '\n' ∉ l := by
  cases b with
  | document children => exact absurd hinv (by simp [BlockInv])
  | divider => exact absurd hinv (by simp [BlockInv])
  | heading level runs style =>
    obtain ⟨-, -, t, hruns, -, hnl⟩ := hinv
    subst hruns
    intro l hl
    simp only [blockLines, List.mem_singleton] at hl
    subst hl
    intro hm
    rcases List.mem_append.mp hm with hm | hm
    · exact absurd (List.eq_of_mem_replicate hm) (by decide)
    · rcases List.mem_cons.mp hm with h | hm
      · exact absurd h (by decide)
      · exact hnl hm
  | paragraph runs style =>
    obtain ⟨t, hruns, -, -, hnl, -⟩ := hinv
    subst hruns
    intro l hl
    simp only [blockLines, List.mem_singleton] at hl
    subst hl
    exact hnl
  | image path altText w h =>
    obtain ⟨-, -, hna, hnp, -⟩ := hinv
    intro l hl
    simp only [blockLines, List.mem_singleton] at hl
    subst hl
    intro hm
    simp [show "![".data = ['!', '['] from rfl, show "](".data = [']', '('] from rfl,
      show ")".data = [')'] from rfl] at hm
    rcases hm with hm | hm
    · exact hna hm
    · exact hnp hm
  | pageBreak =>
    intro l hl
    simp only [blockLines, List.mem_singleton] at hl
    subst hl
    decide
  | codeBlock language code style =>
    obtain ⟨-, -, -, hnl, -⟩ := hinv
    intro l hl
    simp only [blockLines] at hl
    rcases List.mem_cons.mp hl with rfl | hl
    · intro hm
      rcases List.mem_append.mp hm with hm | hm
      · simp [show "```".data = ['`', '`', '`'] from rfl] at hm
      · exact hnl hm
    rcases List.mem_append.mp hl with hl | hl
    · exact splitNL_no_nl code l hl
    · simp only [List.mem_singleton] at hl
      subst hl
      decide
  | list ordered items style =>
    obtain ⟨-, -, -, hitems⟩ := hinv
    intro l hl
    simp only [blockLines] at hl
    rcases List.mem_map.mp hl with ⟨it, hit, rfl⟩
    rcases hitems it hit with ⟨t, rfl, -, hnl⟩
    intro hm
    rcases List.mem_cons.mp hm with h | hm
    · exact absurd h (by decide)
    rcases List.mem_cons.mp hm with h | hm
    · exact absurd h (by decide)
    · exact hnl hm

/-- No serialized block line ends in a carriage return. -/
theorem blockLines_nocr (b : Node) (hinv : BlockInv b) (hgood : goodBlock b = true) :
    ∀ l ∈ blockLines b, l.getLast? ≠ some '\r' := by
  cases b with
  | document children => exact absurd hinv (by simp [BlockInv])
  | divider => exact absurd hinv (by simp [BlockInv])
  | heading level runs style =>
    obtain ⟨-, -, t, hruns, htr, -⟩ := hinv
    subst hruns
    intro l hl
    simp only [blockLines, List.mem_singleton] at hl
    subst hl
    rcases List.eq_nil_or_concat t with rfl | ⟨t0, d, hcat⟩
    · show (repChar '#' level ++ [' '] : Str).getLast? ≠ some '\x0d'
      rw [List.getLast?_concat]
      decide
    · rw [List.concat_eq_append] at hcat
      subst hcat
      have hd : rustWS d = false := trimmed_last htr (by simp)
      show (repChar '#' level ++ ' ' :: (t0 ++ [d]) : Str).getLast? ≠ some '\x0d'
      rw [show (repChar '#' level ++ ' ' :: (t0 ++ [d]) : Str) =
        (repChar '#' level ++ ' ' :: t0) ++ [d] from by simp, List.getLast?_concat]
      intro hc
      injection hc with hc
      subst hc
      exact absurd hd (by decide)
  | paragraph runs style =>
    obtain ⟨t, hruns, -, htr, -⟩ := hinv
    subst hruns
    intro l hl
    simp only [blockLines, List.mem_singleton] at hl
    subst hl
    intro hc
    exact absurd (trimmed_last htr hc) (by decide)
  | image path altText w h =>
    intro l hl
    simp only [blockLines, List.mem_singleton] at hl
    subst hl
    rw [show ("![".data ++ altText ++ "](".data ++ path ++ ")".data : Str) =
      ("![".data ++ altText ++ "](".data ++ path) ++ [')'] from by simp, List.getLast?_concat]
    decide
  | pageBreak =>
    intro l hl
    simp only [blockLines, List.mem_singleton] at hl
    subst hl
    decide
  | codeBlock language code style =>
    obtain ⟨-, hlne, hltr, -⟩ := hinv
    intro l hl
    simp only [blockLines] at hl
    rcases List.mem_cons.mp hl with rfl | hl
    · rcases List.eq_nil_or_concat language with rfl | ⟨l0, d, hcat⟩
      · exact absurd rfl hlne
      rw [List.concat_eq_append] at hcat
      have hd : rustWS d = false := trimmed_last hltr (by rw [hcat]; simp)
      rw [hcat, show ("```".data ++ (l0 ++ [d]) : Str) = ("```".data ++ l0) ++ [d] from by
        simp, List.getLast?_concat]
      intro hc
      injection hc with hc
      subst hc
      exact absurd hd (by decide)
    rcases List.mem_append.mp hl with hl | hl
    · have hall : (splitNL code).all (fun l => !(l.getLast? == some '\r')) = true := by
        simp only [goodBlock, Bool.and_eq_true] at hgood
        exact hgood.2
      have := (List.all_eq_true.mp hall) l hl
      simp only [Bool.not_eq_eq_eq_not, Bool.not_true, beq_eq_false_iff_ne] at this
      exact this
    · simp only [List.mem_singleton] at hl
      subst hl
      decide
  | list ordered items style =>
    obtain ⟨-, -, -, hitems⟩ := hinv
    intro l hl
    simp only [blockLines] at hl
    rcases List.mem_map.mp hl with ⟨it, hit, rfl⟩
    rcases hitems it hit with ⟨t, rfl, htr, -⟩
    show (('-' :: ' ' :: t : Str)).getLast? ≠ some '\r'
    rcases List.eq_nil_or_concat t with rfl | ⟨t0, d, hcat⟩
    · decide
    · rw [List.concat_eq_append] at hcat
      have hd : rustWS d = false := trimmed_last htr (by rw [hcat]; simp)
      rw [hcat, show ('-' :: ' ' :: (t0 ++ [d]) : Str) = ('-' :: ' ' :: t0) ++ [d] from by
        simp, List.getLast?_concat]
      intro hc
      injection hc with hc
      subst hc
      exact absurd hd (by decide)

/-- The last serialized line of any parse-produced block is nonempty. -/
theorem blockLines_last (b : Node) (hinv : BlockInv b) :
    (blockLines b).getLast? ≠ some [] := by
  cases b with
  | document children => exact absurd hinv (by simp [BlockInv])
  | divider => exact absurd hinv (by simp [BlockInv])
  | heading level runs style =>
    show ([repChar '#' level ++ ' ' :: runsText runs] : List Str).getLast? ≠ some []
    simp
  | paragraph runs style =>
    obtain ⟨t, hruns, -, -, -, hne, -⟩ := hinv
    subst hruns
    show ([runsText [TextRun.new t (arLang t) (paraStyle t)]] : List Str).getLast? ≠ some []
    simpa using hne
  | image path altText w h =>
    show ([("![".data ++ altText ++ "](".data ++ path ++ ")".data)] : List Str).getLast? ≠
      some []
    simp [show "![".data = ['!', '['] from rfl]
  | pageBreak => decide
  | codeBlock language code style =>
    show ((("```".data ++ language) :: (splitNL code ++ ["```".data])) : List Str).getLast? ≠
      some []
    rw [show ((("```".data ++ language) :: (splitNL code ++ ["```".data])) : List Str) =
      (("```".data ++ language) :: splitNL code) ++ ["```".data] from by simp,
      List.getLast?_concat]
    simp [show "```".data = ['`', '`', '`'] from rfl]
  | list ordered items style =>
    obtain ⟨-, -, hne, hitems⟩ := hinv
    rcases List.eq_nil_or_concat items with rfl | ⟨its, it, hcat⟩
    · exact absurd rfl hne
    rw [List.concat_eq_append] at hcat
    show ((items.map fun it => '-' :: ' ' :: runsText it.content) : List Str).getLast? ≠
      some []
    rw [hcat, List.map_append, List.map_singleton, List.getLast?_concat]
    simp

theorem interBlank_ne_nil (xss : List (List Str)) (h : xss ≠ [])
    (hx : ∀ xs ∈ xss, xs ≠ []) : interBlank xss ≠ [] := by
  rcases xss with _ | ⟨x, xss'⟩
  · exact absurd rfl h
  rcases xss' with _ | ⟨y, rest⟩
  · exact hx x (by simp)
  · show x ++ ([] :: interBlank (y :: rest)) ≠ []
    simp

theorem mem_interBlank {l : Str} : ∀ {xss : List (List Str)},
    l ∈ interBlank xss → l = [] ∨ ∃ xs ∈ xss, l ∈ xs := by
  intro xss
  induction xss with
  | nil => intro h; simp [interBlank] at h
  | cons x xss' ih =>
    intro h
    rcases xss' with _ | ⟨y, rest⟩
    · exact Or.inr ⟨x, by simp, h⟩
    · rcases List.mem_append.mp h with h | h
      · exact Or.inr ⟨x, by simp, h⟩
      · rcases List.mem_cons.mp h with rfl | h
        · exact Or.inl rfl
        · rcases ih h with h | ⟨xs, hxs, hm⟩
          · exact Or.inl h
          · exact Or.inr ⟨xs, by simp [hxs], hm⟩

theorem interBlank_getLast_ne (xss : List (List Str))
    (hx : ∀ xs ∈ xss, xs ≠ [])
    (hlast : ∀ xs, xss.getLast? = some xs → xs.getLast? ≠ some []) :
    (interBlank xss).getLast? ≠ some [] := by
  induction xss with
  | nil => simp [interBlank]
  | cons x xss' ih =>
    rcases xss' with _ | ⟨y, rest⟩
    · exact hlast x (by simp)
    · show ((x ++ ([] :: interBlank (y :: rest))).getLast?) ≠ some []
      have hne : ([] :: interBlank (y :: rest) : List Str) ≠ [] := by simp
      rw [List.getLast?_append_of_ne_nil _ hne]
      have hibne : interBlank (y :: rest) ≠ [] :=
        interBlank_ne_nil _ (by simp) (fun xs hxs => hx xs (by simp [hxs]))
      rw [show ([] :: interBlank (y :: rest) : List Str) = [[]] ++ interBlank (y :: rest)
        from rfl, List.getLast?_append_of_ne_nil _ hibne]
      exact ih (fun xs hxs => hx xs (by simp [hxs]))
        (fun xs hxs => hlast xs (by rw [List.getLast?_cons_cons]; exact hxs))

/-- The serialization of a document equals the newline-join of the blank-line
interleaving of its blocks' lines. -/
theorem serialize_doc_lines (bs : List Node) (hinv : ∀ b ∈ bs, BlockInv b) :
    serialize_content (.document bs) = joinSep "\n".data (interBlank (bs.map blockLines)) := by
  induction bs with
  | nil => rfl
  | cons b bs' ih =>
    rcases bs' with _ | ⟨b2, rest⟩
    · show joinSep "\n\n".data (serializeChildren [b]) = _
      show joinSep "\n\n".data [serialize_content b] = _
      show serialize_content b = joinSep "\n".data (interBlank [blockLines b])
      rw [show interBlank [blockLines b] = blockLines b from rfl]
      exact (blockLines_join b (hinv b (by simp))).symm
    · show joinSep "\n\n".data (serializeChildren (b :: b2 :: rest)) = _
      rw [show serializeChildren (b :: b2 :: rest) =
        serialize_content b :: serializeChildren (b2 :: rest) from rfl]
      rw [joinSep_cons _ _ _ (by
        rw [show serializeChildren (b2 :: rest) =
          serialize_content b2 :: serializeChildren rest from rfl]
        simp)]
      rw [show interBlank ((b :: b2 :: rest).map blockLines) =
        blockLines b ++ ([] :: interBlank ((b2 :: rest).map blockLines)) from rfl]
      have hibne : interBlank ((b2 :: rest).map blockLines) ≠ [] :=
        interBlank_ne_nil _ (by simp) (fun xs hxs => by
          rcases List.mem_map.mp hxs with ⟨b', hb', rfl⟩
          exact blockLines_ne_nil b' (hinv b' (by simp [hb'])))
      rw [joinSep_append _ _ _ (blockLines_ne_nil b (hinv b (by simp))) (by simp)]
      rw [blockLines_join b (hinv b (by simp))]
      rw [joinSep_cons _ _ _ hibne]
      rw [← ih (fun b' hb' => hinv b' (by simp [hb']))]
      show _ = serialize_content b ++ ['\n'] ++ ([] ++ ['\n'] ++ serialize_content (.document (b2 :: rest)))
      show serialize_content b ++ ['\n', '\n'] ++ serialize_content (.document (b2 :: rest)) = _
      simp

theorem rustLines_serialize_doc (bs : List Node)
    (hinv2 : ∀ b ∈ bs, BlockInv b ∧ goodBlock b = true) :
    rustLines (serialize_content (.document bs)) = interBlank (bs.map blockLines) := by
  rcases bs with _ | ⟨b0, bs'⟩
  · rfl
  rw [serialize_doc_lines _ (fun b hb => (hinv2 b hb).1)]
  apply rustLines_joinSep
  · intro l hl
    rcases mem_interBlank hl with rfl | ⟨xs, hxs, hm⟩
    · simp
    · rcases List.mem_map.mp hxs with ⟨b, hb, rfl⟩
      exact blockLines_nl b (hinv2 b hb).1 l hm
  · intro l hl
    have hl' := (List.dropLast_sublist _).mem hl
    rcases mem_interBlank hl' with rfl | ⟨xs, hxs, hm⟩
    · simp
    · rcases List.mem_map.mp hxs with ⟨b, hb, rfl⟩
      exact blockLines_nocr b (hinv2 b hb).1 (hinv2 b hb).2 l hm
  · apply interBlank_getLast_ne
    · intro xs hxs
      rcases List.mem_map.mp hxs with ⟨b, hb, rfl⟩
      exact blockLines_ne_nil b (hinv2 b hb).1
    · intro xs hxs
      have hmem : xs ∈ (b0 :: bs').map blockLines := by
        rcases List.mem_getLast?_eq_getLast (l := (b0 :: bs').map blockLines) (x := xs)
          (by rw [Option.mem_def]; exact hxs) with ⟨h, hx2⟩
        rw [hx2]
        exact List.getLast_mem h
      rcases List.mem_map.mp hmem with ⟨b, hb, rfl⟩
      exact blockLines_last b (hinv2 b hb).1

/-- Serialize-then-reparse recovers any good parse-produced block list. -/
theorem parse_serialize_round (bs : List Node)
    (hinv2 : ∀ b ∈ bs, BlockInv b ∧ goodBlock b = true) :
    parse_content (serialize_content (.document bs)) = some (.document bs) := by
  unfold parse_content
  rw [rustLines_serialize_doc bs hinv2]
  rw [parseB_fuel (interBlank (bs.map blockLines)).length
    ((interBlank (bs.map blockLines)).length + 1)
    (2 * bs.length + (interBlank (bs.map blockLines)).length + 1)
    (interBlank (bs.map blockLines)) le_rfl (by omega) (by omega)]
  rw [parse_blocks_round bs _ (by omega) hinv2]
  rfl

-- ============================================================================
-- Forward invariant: every block parse_content emits satisfies BlockInv
-- ============================================================================

theorem headingInv (l : Str) (hnl : '\n' ∉ l) :
    BlockInv (Node.heading ((((rtrim l).takeWhile (· == '#')).length) % 256)
      [TextRun.new (rtrim (trimStartMatches (rtrim l) '#'))
        (arLang (rtrim (trimStartMatches (rtrim l) '#')))
        (headingStyle ((((rtrim l).takeWhile (· == '#')).length) % 256))]
      (headingStyle ((((rtrim l).takeWhile (· == '#')).length) % 256))) := by
  refine ⟨Nat.mod_lt _ (by omega), rfl,
    rtrim (trimStartMatches (rtrim l) '#'), rfl, rtrim_idem _, ?_⟩
  intro hm
  exact hnl (mem_rtrim (mem_dropWhileEq (mem_rtrim hm)))

theorem paragraphInv (l : Str) (hnl : '\n' ∉ l) (hne : rtrim l ≠ [])
    (hh : startsWithC (rtrim l) '#' = false)
    (hf : startsWithS (rtrim l) "```".data = false)
    (hb : (startsWithC (rtrim l) '-' || startsWithC (rtrim l) '•') = false)
    (hd : rtrim l ≠ "---".data) (hpk : rtrim l ≠ "===".data)
    (him : NotImage (rtrim l)) :
    BlockInv (Node.paragraph
      [TextRun.new (rtrim l) (arLang (rtrim l)) (paraStyle (rtrim l))]
      (paraStyle (rtrim l))) := by
  simp only [Bool.or_eq_false_iff] at hb
  refine ⟨rtrim l, rfl, rfl, rtrim_idem l, (fun hm => hnl (mem_rtrim hm)), hne,
    hh, hf, hb.1, hb.2, hd, hpk, ?_⟩
  intro hsw
  rcases him with him | him | him
  · rw [him] at hsw
    cases hsw
  · exact Or.inl him
  · exact Or.inr him

theorem listInv (l : Str) (rest : List Str) (hnl : ∀ x ∈ l :: rest, '\n' ∉ x)
    (hb : isBullet l = true) :
    BlockInv (Node.list false (((l :: rest).takeWhile isBullet).map mkItem) "list".data) := by
  refine ⟨rfl, rfl, ?_, ?_⟩
  · rw [List.takeWhile_cons_of_pos hb]
    simp
  · intro it hit
    rcases List.mem_map.mp hit with ⟨l', hl', rfl⟩
    refine ⟨rtrim (trimStartMatches (trimStartMatches (rtrim l') '-') '•'), rfl,
      rtrim_idem _, ?_⟩
    intro hm
    have hmem : l' ∈ l :: rest := (List.takeWhile_sublist _).mem hl'
    exact hnl l' hmem (mem_rtrim (mem_dropWhileEq (mem_dropWhileEq (mem_rtrim hm))))

theorem codeInv (l : Str) (rest : List Str) (hnl : ∀ x ∈ l :: rest, '\n' ∉ x) :
    BlockInv (Node.codeBlock
      (if rtrim (trimStartMatches (rtrim l) '`') = [] then "text".data
       else rtrim (trimStartMatches (rtrim l) '`'))
      (joinSep "\n".data (rest.takeWhile (fun l2 => !isFence l2))) "code".data) := by
  have hcl : ∀ x ∈ splitNL (joinSep "\n".data (rest.takeWhile (fun l2 => !isFence l2))),
      isFence x = false := by
    intro x hx
    rcases hempty : rest.takeWhile (fun l2 => !isFence l2) with _ | ⟨c0, cls⟩
    · rw [hempty] at hx
      simp only [joinSep] at hx
      simp only [splitNL] at hx
      rcases List.mem_singleton.mp hx
      decide
    · rw [hempty] at hx
      rw [splitNL_joinSep _ (by simp) (fun y hy => by
        rw [← hempty] at hy
        exact hnl y (by
          simp only [List.mem_cons]
          exact Or.inr ((List.takeWhile_sublist _).mem hy)))] at hx
      rw [← hempty] at hx
      have := List.mem_takeWhile_imp hx
      simpa using this
  by_cases h0 : rtrim (trimStartMatches (rtrim l) '`') = []
  · rw [if_pos h0]
    exact ⟨rfl, by decide, by decide, by decide, hcl⟩
  · rw [if_neg h0]
    refine ⟨rfl, h0, rtrim_idem _, ?_, hcl⟩
    intro hm
    exact hnl l (by simp) (mem_rtrim (mem_dropWhileEq (mem_rtrim hm)))

theorem mem_sliceStr {c : Char} {s : Str} {a b : Nat} (h : c ∈ sliceStr s a b) : c ∈ s := by
  unfold sliceStr at h
  exact (List.drop_sublist _ _).mem ((List.take_sublist _ _).mem h)

theorem imageInv (l : Str) (hnl : '\n' ∉ l) (cb cp : Nat)
    (hfs : findSub (rtrim l) "](".data = some cb)
    (hfc : findChar (rtrim l) ')' = some cp)
    (hok : 2 ≤ cb ∧ cb + 2 ≤ cp) :
    BlockInv (Node.image (sliceStr (rtrim l) (cb + 2) cp) (sliceStr (rtrim l) 2 cb)
      none none) := by
  obtain ⟨hcb2, hcbcp⟩ := hok
  rcases findChar_split hfc with ⟨p, q, hpq, hplen, hpnot⟩
  have h2p : 2 ≤ p.length := by omega
  have halt : sliceStr (rtrim l) 2 cb = (p.drop 2).take (cb - 2) := by
    unfold sliceStr
    rw [hpq, List.drop_append_eq_append_drop, show 2 - p.length = 0 from by omega,
      List.drop_zero, List.take_append_of_le_length (by rw [List.length_drop]; omega)]
  have hpath : sliceStr (rtrim l) (cb + 2) cp = (p.drop (cb + 2)).take (cp - (cb + 2)) := by
    unfold sliceStr
    rw [hpq, List.drop_append_eq_append_drop, show cb + 2 - p.length = 0 from by omega,
      List.drop_zero, List.take_append_of_le_length (by rw [List.length_drop]; omega)]
  refine ⟨rfl, rfl, ?_, ?_, ?_, ?_, ?_⟩
  · intro hm
    exact hnl (mem_rtrim (mem_sliceStr hm))
  · intro hm
    exact hnl (mem_rtrim (mem_sliceStr hm))
  · rw [halt]
    intro hm
    exact hpnot ((List.drop_sublist _ _).mem ((List.take_sublist _ _).mem hm))
  · rw [hpath]
    intro hm
    exact hpnot ((List.drop_sublist _ _).mem ((List.take_sublist _ _).mem hm))
  · rcases findSub_min hfs with ⟨-, h2min⟩
    intro j hp
    by_cases hj : j < cb - 2
    · have heq : (sliceStr (rtrim l) 2 cb).drop j =
          ((rtrim l).drop (2 + j)).take (cb - 2 - j) := by
        unfold sliceStr
        rw [List.drop_take, List.drop_drop]
      rw [heq] at hp
      exact h2min (2 + j) (by omega) (hp.trans (List.take_prefix _ _))
    · have hlen : (sliceStr (rtrim l) 2 cb).length ≤ j := by
        unfold sliceStr
        rw [List.length_take]
        exact le_trans (min_le_left _ _) (by omega)
      rw [List.drop_eq_nil_of_le hlen] at hp
      rcases hp with ⟨r, hr⟩
      simp [show "](".data = [']', '('] from rfl] at hr

/-- The non-image branch chain preserves the invariant. -/
theorem parseB_inv_rest (f : Nat) (l : Str) (rest : List Str) (bs : List Node)
    (ih : ∀ (ls' : List Str) (bs' : List Node), (∀ x ∈ ls', '\n' ∉ x) →
      parseB f ls' = some bs' → ∀ b ∈ bs', BlockInv b)
    (hnl : ∀ x ∈ l :: rest, '\n' ∉ x)
    (hblank : rtrim l ≠ [])
    (him : NotImage (rtrim l))
    (hp : parseB (f + 1) (l :: rest) = some bs) : ∀ b ∈ bs, BlockInv b := by
  have hnlrest : ∀ x ∈ rest, '\n' ∉ x := fun x hx => hnl x (by simp [hx])
  by_cases hh : startsWithC (rtrim l) '#' = true
  · rw [parseB_heading f l rest hblank him hh] at hp
    rcases Option.map_eq_some'.mp hp with ⟨bs', hbs', rfl⟩
    intro b hb
    rcases List.mem_cons.mp hb with rfl | hb
    · exact headingInv l (hnl l (by simp))
    · exact ih rest bs' hnlrest hbs' b hb
  · replace hh : startsWithC (rtrim l) '#' = false := by simpa using hh
    by_cases hf : startsWithS (rtrim l) "```".data = true
    · rw [parseB_code f l rest hblank him hh hf] at hp
      rcases Option.map_eq_some'.mp hp with ⟨bs', hbs', rfl⟩
      intro b hb
      rcases List.mem_cons.mp hb with rfl | hb
      · exact codeInv l rest hnl
      · refine ih _ bs' ?_ hbs' b hb
        intro x hx
        exact hnlrest x ((List.dropWhile_sublist _).mem ((List.drop_sublist _ _).mem hx))
    · replace hf : startsWithS (rtrim l) "```".data = false := by simpa using hf
      by_cases hbu : (startsWithC (rtrim l) '-' || startsWithC (rtrim l) '•') = true
      · rw [parseB_list f l rest hblank him hh hf hbu] at hp
        rcases Option.map_eq_some'.mp hp with ⟨bs', hbs', rfl⟩
        intro b hb
        rcases List.mem_cons.mp hb with rfl | hb
        · exact listInv l rest hnl hbu
        · refine ih _ bs' ?_ hbs' b hb
          intro x hx
          exact hnl x ((List.dropWhile_sublist _).mem hx)
      · replace hbu : (startsWithC (rtrim l) '-' || startsWithC (rtrim l) '•') = false := by
          simpa using hbu
        by_cases hd : rtrim l = "---".data
        · -- unreachable: a "---" line starts with '-' and is taken by the list branch
          exfalso
          rw [hd] at hbu
          simp [startsWithC, show "---".data = ['-', '-', '-'] from rfl] at hbu
        · by_cases hpk : rtrim l = "===".data
          · rw [parseB_pageBreak f l rest hblank him hh hf hbu hd hpk] at hp
            rcases Option.map_eq_some'.mp hp with ⟨bs', hbs', rfl⟩
            intro b hb
            rcases List.mem_cons.mp hb with rfl | hb
            · trivial
            · exact ih rest bs' hnlrest hbs' b hb
          · rw [parseB_paragraph f l rest hblank him hh hf hbu hd hpk] at hp
            rcases Option.map_eq_some'.mp hp with ⟨bs', hbs', rfl⟩
            intro b hb
            rcases List.mem_cons.mp hb with rfl | hb
            · exact paragraphInv l (hnl l (by simp)) hblank hh hf hbu hd hpk him
            · exact ih rest bs' hnlrest hbs' b hb

/-- Every block in a successful `parseB` result satisfies `BlockInv`. -/
theorem parseB_inv : ∀ (fuel : Nat) (ls : List Str) (bs : List Node),
    (∀ l ∈ ls, '\n' ∉ l) → parseB fuel ls = some bs → ∀ b ∈ bs, BlockInv b := by
  intro fuel
  induction fuel with
  | zero =>
    intro ls bs _ h
    simp [parseB] at h
  | succ f ih =>
    intro ls bs hnl hp
    rcases ls with _ | ⟨l, rest⟩
    · have : bs = [] := by
        rw [show parseB (f + 1) [] = some [] from rfl] at hp
        injection hp with h
        exact h.symm
      subst this
      intro b hb
      simp at hb
    · have hnlrest : ∀ x ∈ rest, '\n' ∉ x := fun x hx => hnl x (by simp [hx])
      by_cases hblank : rtrim l = []
      · rw [parseB_blank f l rest hblank] at hp
        exact ih rest bs hnlrest hp
      by_cases him : startsWithS (rtrim l) "![".data = true
      · rcases hfs : findSub (rtrim l) "](".data with _ | cb
        · exact parseB_inv_rest f l rest bs ih hnl hblank (Or.inr (Or.inl hfs)) hp
        rcases hfc : findChar (rtrim l) ')' with _ | cp
        · exact parseB_inv_rest f l rest bs ih hnl hblank (Or.inr (Or.inr hfc)) hp
        by_cases hok : 2 ≤ cb ∧ cb + 2 ≤ cp
        · rw [parseB_image f l rest cb cp hblank him hfs hfc hok] at hp
          rcases Option.map_eq_some'.mp hp with ⟨bs', hbs', rfl⟩
          intro b hb
          rcases List.mem_cons.mp hb with rfl | hb
          · exact imageInv l (hnl l (by simp)) cb cp hfs hfc hok
          · exact ih rest bs' hnlrest hbs' b hb
        · rw [parseB_image_panic f l rest cb cp hblank him hfs hfc hok] at hp
          cases hp
      · exact parseB_inv_rest f l rest bs ih hnl hblank (Or.inl (by simpa using him)) hp

/-- No line produced by `rustLines` contains a newline. -/
theorem rustLines_no_nl (s : Str) : ∀ l ∈ rustLines s, '\n' ∉ l := by
  intro l hl
  unfold rustLines at hl
  rcases List.mem_append.mp hl with hl | hl
  · rcases List.mem_map.mp hl with ⟨x, hx, rfl⟩
    have hx' : x ∈ splitNL s := (List.dropLast_sublist _).mem hx
    intro hm
    unfold stripCR at hm
    by_cases h : x.getLast? = some '\r'
    · rw [if_pos h] at hm
      exact splitNL_no_nl s x hx' ((List.dropLast_sublist _).mem hm)
    · rw [if_neg h] at hm
      exact splitNL_no_nl s x hx' hm
  · rcases hgl : (splitNL s).getLast? with _ | last
    · simp only [hgl] at hl
      simp at hl
    · simp only [hgl] at hl
      by_cases h : last = []
      · rw [if_pos h] at hl
        simp at hl
      · rw [if_neg h] at hl
        simp only [List.mem_singleton] at hl
        subst hl
        have : l ∈ splitNL s := by
          rcases List.mem_getLast?_eq_getLast (x := l) (by rw [Option.mem_def]; exact hgl)
            with ⟨hne, hx2⟩
          rw [hx2]
          exact List.getLast_mem hne
        exact splitNL_no_nl s l this

/-- Every block of a successfully parsed document satisfies the invariant. -/
theorem parse_content_inv {s : Str} {bs : List Node}
    (h : parse_content s = some (.document bs)) : ∀ b ∈ bs, BlockInv b := by
  unfold parse_content at h
  rcases Option.map_eq_some'.mp h with ⟨bs', hbs', heq⟩
  injection heq with heq
  subst heq
  exact parseB_inv _ _ _ (rustLines_no_nl s) hbs'

-- ============================================================================
-- Run and heading-level collectors over documents
-- ============================================================================

mutual

/-- All `TextRun`s held in a tree, in document order. -/
def nodeRuns : Node → List TextRun
  | .document children => nodeListRuns children
  | .heading _ runs _ => runs
  | .paragraph runs _ => runs
  | .list _ items _ => (items.map (·.content)).flatten
  | .codeBlock _ _ _ => []
  | .image _ _ _ _ => []
  | .divider => []
  | .pageBreak => []

def nodeListRuns : List Node → List TextRun
  | [] => []
  | n :: ns => nodeRuns n ++ nodeListRuns ns

end

mutual

/-- All `Heading` levels held in a tree. -/
def headingLevels : Node → List Nat
  | .document children => headingLevelsList children
  | .heading level _ _ => [level]
  | .paragraph _ _ => []
  | .list _ _ _ => []
  | .codeBlock _ _ _ => []
  | .image _ _ _ _ => []
  | .divider => []
  | .pageBreak => []

def headingLevelsList : List Node → List Nat
  | [] => []
  | n :: ns => headingLevels n ++ headingLevelsList ns

end

theorem mem_nodeListRuns {r : TextRun} : ∀ {ns : List Node},
    r ∈ nodeListRuns ns → ∃ b ∈ ns, r ∈ nodeRuns b := by
  intro ns
  induction ns with
  | nil => intro h; simp [nodeListRuns] at h
  | cons n t ih =>
    intro h
    rcases List.mem_append.mp h with h | h
    · exact ⟨n, by simp, h⟩
    · rcases ih h with ⟨b, hb, hm⟩
      exact ⟨b, by simp [hb], hm⟩

theorem mem_headingLevelsList {lv : Nat} : ∀ {ns : List Node},
    lv ∈ headingLevelsList ns → ∃ b ∈ ns, lv ∈ headingLevels b := by
  intro ns
  induction ns with
  | nil => intro h; simp [headingLevelsList] at h
  | cons n t ih =>
    intro h
    rcases List.mem_append.mp h with h | h
    · exact ⟨n, by simp, h⟩
    · rcases ih h with ⟨b, hb, hm⟩
      exact ⟨b, by simp [hb], hm⟩

/-- In a parse-produced block, every run was built by `TextRun::new` from its
text with the Arabic-scan language. -/
theorem blockInv_runs {b : Node} (h : BlockInv b) :
    ∀ r ∈ nodeRuns b, ∃ t style, r = TextRun.new t (arLang t) style := by
  cases b with
  | document children => exact absurd h (by simp [BlockInv])
  | divider => exact absurd h (by simp [BlockInv])
  | heading level runs style =>
    obtain ⟨-, -, t, hruns, -⟩ := h
    subst hruns
    intro r hr
    rcases List.mem_singleton.mp hr with rfl
    exact ⟨t, headingStyle level, rfl⟩
  | paragraph runs style =>
    obtain ⟨t, hruns, -⟩ := h
    subst hruns
    intro r hr
    rcases List.mem_singleton.mp hr with rfl
    exact ⟨t, paraStyle t, rfl⟩
  | list ordered items style =>
    obtain ⟨-, -, -, hitems⟩ := h
    intro r hr
    rcases List.mem_flatten.mp hr with ⟨c, hc, hrc⟩
    rcases List.mem_map.mp hc with ⟨it, hit, rfl⟩
    rcases hitems it hit with ⟨t, rfl, -⟩
    rcases List.mem_singleton.mp hrc with rfl
    exact ⟨t, "paragraph".data, rfl⟩
  | codeBlock language code style => intro r hr; simp [nodeRuns] at hr
  | image path altText w hgt => intro r hr; simp [nodeRuns] at hr
  | pageBreak => intro r hr; simp [nodeRuns] at hr

theorem blockInv_levels {b : Node} (h : BlockInv b) :
    ∀ lv ∈ headingLevels b, lv < 256 := by
  cases b with
  | document children => exact absurd h (by simp [BlockInv])
  | divider => exact absurd h (by simp [BlockInv])
  | heading level runs style =>
    obtain ⟨hlt, -⟩ := h
    intro lv hlv
    rcases List.mem_singleton.mp hlv with rfl
    exact hlt
  | paragraph runs style => intro lv hlv; simp [headingLevels] at hlv
  | list ordered items style => intro lv hlv; simp [headingLevels] at hlv
  | codeBlock language code style => intro lv hlv; simp [headingLevels] at hlv
  | image path altText w hgt => intro lv hlv; simp [headingLevels] at hlv
  | pageBreak => intro lv hlv; simp [headingLevels] at hlv

/-- Direction of a parser-constructed run, as a function of its text. -/
theorem run_new_dir (t style : Str) :
    (TextRun.new t (arLang t) style).direction =
      (if hasArabic t then Direction.RTL else Direction.LTR) := by
  by_cases h : hasArabic t <;> simp [arLang, h] <;> rfl

theorem pdx_text_id (s : Str) : pdx_text (fun x => x) s = s := by
  unfold pdx_text
  split <;> rfl

-- ============================================================================
-- Shaping factorization of the render projections
-- ============================================================================

theorem anyRTL_map (g : Str → Str) (runs : List TextRun) :
    anyRTL (runs.map fun r => { r with text := g r.text }) = anyRTL runs := by
  unfold anyRTL
  rw [List.any_map]
  rfl

theorem enumFrom_map {α β : Type} (f : α → β) :
    ∀ (k : Nat) (l : List α), (l.map f).enumFrom k = (l.enumFrom k).map (fun p => (p.1, f p.2)) := by
  intro k l
  induction l generalizing k with
  | nil => rfl
  | cons a t ih => simp [List.enumFrom, ih]

theorem enum_map {α β : Type} (f : α → β) (l : List α) :
    (l.map f).enum = l.enum.map (fun p => (p.1, f p.2)) :=
  enumFrom_map f 0 l

mutual

/-- The interactive preview factors through shaping: drawing with shaping
function `f` equals drawing the `pdx_text f`-shaped document raw (shaping with
the identity is the identity on every string). -/
theorem previewShape (f : Str → Str) (imgs : Str → Bool) :
    ∀ n : Node, previewTexts f imgs n =
      previewTexts (fun s => s) imgs (mapRunTexts (pdx_text f) n)
  | .document children => by
      simp only [previewTexts, mapRunTexts]
      exact previewShapeList f imgs children
  | .heading level runs style => by
      simp only [previewTexts, mapRunTexts]
      rw [anyRTL_map]
      by_cases h : anyRTL runs = true
      · rw [if_pos h, if_pos h, ← List.map_reverse, List.map_map]
        apply List.map_congr_left
        intro r _
        exact (pdx_text_id (pdx_text f r.text)).symm
      · rw [if_neg h, if_neg h, List.map_map]
        apply List.map_congr_left
        intro r _
        exact (pdx_text_id (pdx_text f r.text)).symm
  | .paragraph runs style => by
      simp only [previewTexts, mapRunTexts]
      rw [anyRTL_map]
      by_cases h : anyRTL runs = true
      · rw [if_pos h, if_pos h, ← List.map_reverse, List.map_map]
        apply List.map_congr_left
        intro r _
        exact (pdx_text_id (pdx_text f r.text)).symm
      · rw [if_neg h, if_neg h, List.map_map]
        apply List.map_congr_left
        intro r _
        exact (pdx_text_id (pdx_text f r.text)).symm
  | .list ordered items style => by
      simp only [previewTexts, mapRunTexts]
      rw [show (List.enum (items.map fun it =>
          (⟨it.content.map fun r => { r with text := pdx_text f r.text }⟩ : ListItem))) =
        items.enum.map (fun p =>
          (p.1, (⟨p.2.content.map fun r => { r with text := pdx_text f r.text }⟩ : ListItem)))
        from enum_map _ items]
      rw [List.map_map]
      congr 1
      apply List.map_congr_left
      intro p _
      show _ = (if anyRTL (p.2.content.map fun r => { r with text := pdx_text f r.text }) then
        _ else _)
      rw [anyRTL_map]
      by_cases h : anyRTL p.2.content = true
      · rw [if_pos h, if_pos h, ← List.map_reverse, List.map_map]
        congr 1
        apply List.map_congr_left
        intro r _
        exact (pdx_text_id (pdx_text f r.text)).symm
      · rw [if_neg h, if_neg h, List.map_map]
        congr 1
        apply List.map_congr_left
        intro r _
        exact (pdx_text_id (pdx_text f r.text)).symm
  | .codeBlock language code style => rfl
  | .image path altText w h => rfl
  | .divider => rfl
  | .pageBreak => rfl

theorem previewShapeList (f : Str → Str) (imgs : Str → Bool) :
    ∀ ns : List Node, previewTextsList f imgs ns =
      previewTextsList (fun s => s) imgs (mapRunTextsList (pdx_text f) ns)
  | [] => rfl
  | n :: ns => by
      simp only [previewTextsList, mapRunTextsList]
      rw [previewShape f imgs n, previewShapeList f imgs ns]

end

mutual

/-- The paginated export shapes exactly the concatenated per-block strings:
its output with shaping `f` is the raw output mapped through `pdx_text f`. -/
theorem pdfShape (f : Str → Str) :
    ∀ n : Node, pdfTexts f n = (pdfTexts (fun s => s) n).map (pdx_text f)
  | .document children => by
      simp only [pdfTexts]
      exact pdfShapeList f children
  | .heading level runs style => by
      simp only [pdfTexts, List.map_singleton]
      rw [pdx_text_id]
  | .paragraph runs style => by
      simp only [pdfTexts, List.map_singleton]
      rw [pdx_text_id]
  | .list ordered items style => by
      simp only [pdfTexts]
      rw [List.map_map]
      apply List.map_congr_left
      intro p _
      show _ = pdx_text f (pdx_text (fun s => s) _)
      rw [pdx_text_id]
  | .codeBlock language code style => rfl
  | .image path altText w h => rfl
  | .divider => rfl
  | .pageBreak => rfl

theorem pdfShapeList (f : Str → Str) :
    ∀ ns : List Node, pdfTextsList f ns = (pdfTextsList (fun s => s) ns).map (pdx_text f)
  | [] => rfl
  | n :: ns => by
      simp only [pdfTextsList]
      rw [List.map_append, pdfShape f n, pdfShapeList f ns]

end

mutual

/-- Modelled from the spec: the static-markup export as the render-projection
contract demands it — identical to `node_to_html` except that every TextRun's
text passes through the shaping function before it is written.  This is the
spec-side reference that the C3 counterexample compares against. -/
def node_to_html_shaped (f : Str → Str) : Node → Str
  | .document children => htmlChildrenShaped f children
  | .heading level runs _ =>
      "<h".data ++ natStr level ++ " class=\"".data ++
        (if anyRTL runs then "rtl".data else "ltr".data) ++ "\">".data ++
        (runs.map (fun r => pdx_text f r.text)).flatten ++
        "</h".data ++ natStr level ++ ">\n".data
  | .paragraph runs _ =>
      "<p class=\"".data ++ (if anyRTL runs then "rtl".data else "ltr".data) ++
        "\">".data ++ (runs.map (fun r => pdx_text f r.text)).flatten ++ "</p>\n".data
  | .list ordered items _ =>
      (if ordered then "<ol>".data else "<ul>".data) ++
        (items.map fun item =>
          "<li class=\"".data ++
            (if anyRTL item.content then "rtl".data else "ltr".data) ++ "\">".data ++
            (item.content.map (fun r => pdx_text f r.text)).flatten ++ "</li>".data).flatten ++
        (if ordered then "</ol>\n".data else "</ul>\n".data)
  | .codeBlock language code _ =>
      "<pre><code class=\"language-".data ++ language ++ "\">".data ++ code ++
        "</code></pre>\n".data
  | .image path altText _ _ =>
      "<img src=\"".data ++ path ++ "\" alt=\"".data ++ altText ++ "\" />\n".data
  | .divider => "<hr/>\n".data
  | .pageBreak => "<hr style=\"border-top: 3px double #ddd;\"/>\n".data

def htmlChildrenShaped (f : Str → Str) : List Node → Str
  | [] => []
  | n :: ns => node_to_html_shaped f n ++ htmlChildrenShaped f ns

end

theorem lookupStyle_none (name : Str) :
    ∀ ms : List (Str × Style), (∀ p ∈ ms, p.1 ≠ name) → lookupStyle ms name = none := by
  intro ms
  induction ms with
  | nil => intro _; rfl
  | cons kv t ih =>
    intro h
    rcases kv with ⟨k, v⟩
    unfold lookupStyle
    rw [if_neg (h (k, v) (by simp))]
    exact ih (fun p hp => h p (by simp [hp]))

-- ============================================================================
-- Claims
-- ============================================================================

/-- C1 (counterexample): the round-trip law fails as stated.  The input
`"``` `x"` parses to a code block whose language token is `` `x ``; its
serialization `"````x\n\n```"` reparses with language `x`, so
`parse(serialize(parse x))` differs structurally from `parse x`. -/
theorem claim_C1_counterexample :
    parse_content "``` `x".data =
      some (.document [.codeBlock "`x".data [] "code".data]) ∧
    parse_content (serialize_content (.document [.codeBlock "`x".data [] "code".data])) ≠
      parse_content "``` `x".data := by
  refine ⟨rfl, ?_⟩
  intro h
  rw [show parse_content (serialize_content
        (.document [.codeBlock "`x".data [] "code".data])) =
      some (.document [.codeBlock "x".data [] "code".data]) from rfl,
    show parse_content "``` `x".data =
      some (.document [.codeBlock "`x".data [] "code".data]) from rfl] at h
  injection h with h1
  injection h1 with h2
  injection h2 with h3 h4
  injection h3 with h5 h6 h7
  exact absurd h5 (by decide)

/-- C1 (amended): for every input `x` on which `parse_content` succeeds and
whose parse contains no zero-level heading (a line whose leading-`'#'` count
is a multiple of 256), no code block whose language token starts with a
backtick, and no code line ending in a carriage return (`goodDoc`),
`parse(serialize(parse x))` structurally equals `parse x`. -/
theorem claim_C1 : ∀ (x : Str) (d : Node), parse_content x = some d →
    goodDoc d = true → parse_content (serialize_content d) = some d := by
  intro x d hp hg
  have hp' := hp
  unfold parse_content at hp'
  rcases Option.map_eq_some'.mp hp' with ⟨bs, hbs, rfl⟩
  have hinv : ∀ b ∈ bs, BlockInv b := parseB_inv _ _ _ (rustLines_no_nl x) hbs
  have hgood : ∀ b ∈ bs, goodBlock b = true := by
    simp only [goodDoc] at hg
    exact fun b hb => List.all_eq_true.mp hg b hb
  exact parse_serialize_round bs (fun b hb => ⟨hinv b hb, hgood b hb⟩)

/-- C1 (witness): a concrete four-block document (heading, list, code block,
Arabic paragraph) survives the serialize-reparse round trip. -/
theorem claim_C1_witness :
    parse_content "# Hi\n\n- a\n\n```rust\nlet x;\n```\n\nمرحبا".data =
      some (.document
        [.heading 1 [TextRun.new "Hi".data "en".data "heading1".data] "heading1".data,
         .list false [⟨[TextRun.new "a".data "en".data "paragraph".data]⟩] "list".data,
         .codeBlock "rust".data "let x;".data "code".data,
         .paragraph [TextRun.new "مرحبا".data "ar".data "arabic".data] "arabic".data]) ∧
    goodDoc (.document
        [.heading 1 [TextRun.new "Hi".data "en".data "heading1".data] "heading1".data,
         .list false [⟨[TextRun.new "a".data "en".data "paragraph".data]⟩] "list".data,
         .codeBlock "rust".data "let x;".data "code".data,
         .paragraph [TextRun.new "مرحبا".data "ar".data "arabic".data] "arabic".data]) = true ∧
    parse_content (serialize_content (.document
        [.heading 1 [TextRun.new "Hi".data "en".data "heading1".data] "heading1".data,
         .list false [⟨[TextRun.new "a".data "en".data "paragraph".data]⟩] "list".data,
         .codeBlock "rust".data "let x;".data "code".data,
         .paragraph [TextRun.new "مرحبا".data "ar".data "arabic".data] "arabic".data])) =
      some (.document
        [.heading 1 [TextRun.new "Hi".data "en".data "heading1".data] "heading1".data,
         .list false [⟨[TextRun.new "a".data "en".data "paragraph".data]⟩] "list".data,
         .codeBlock "rust".data "let x;".data "code".data,
         .paragraph [TextRun.new "مرحبا".data "ar".data "arabic".data] "arabic".data]) :=
  ⟨rfl, rfl, claim_C1 "# Hi\n\n- a\n\n```rust\nlet x;\n```\n\nمرحبا".data _ rfl rfl⟩

/-- C2 (code bug): parsing is not total.  On the line `"![)]("` the image
branch finds `"]("` at index 3 but the first `')'` at index 2, so the Rust
slice `&line[close_bracket + 2..close_paren]` is `&line[5..2]` and panics;
the model returns `none` exactly on that path.  The spec's contract says every
`"!["`-line falls through to a Paragraph instead. -/
theorem claim_C2 : parse_content "![)](".data = none := rfl

/-- C3 (counterexample): the static HTML export does not apply the shaping
function: on an Arabic paragraph it writes the raw run text, differing from
the spec-side shaped export under a shaping function that rewrites the text. -/
theorem claim_C3_counterexample :
    node_to_html (.paragraph [TextRun.new "مرحبا".data "ar".data "arabic".data]
      "arabic".data) ≠
    node_to_html_shaped (fun _ => "X".data)
      (.paragraph [TextRun.new "مرحبا".data "ar".data "arabic".data] "arabic".data) := by
  decide

/-- C3 (amended): the interactive preview applies the shaping function to
every TextRun's text before drawing (its output equals the raw renderer run on
the shaped document), and the paginated PDF export shapes exactly the
concatenated per-block text it writes; the static HTML export emits raw run
text (see the counterexample). -/
theorem claim_C3 :
    (∀ (f : Str → Str) (imgs : Str → Bool) (n : Node),
      previewTexts f imgs n = previewTexts (fun s => s) imgs (mapRunTexts (pdx_text f) n)) ∧
    (∀ (f : Str → Str) (n : Node),
      pdfTexts f n = (pdfTexts (fun s => s) n).map (pdx_text f)) :=
  ⟨fun f imgs n => previewShape f imgs n, fun f n => pdfShape f n⟩

/-- C4: for every string with no character in the Arabic block
U+0600..U+06FF, shaping returns the input unchanged, whatever the underlying
reshaping/bidi library does. -/
theorem claim_C4 : ∀ (reshapeBidi : Str → Str) (s : Str),
    (∀ c ∈ s, ¬(0x600 ≤ c.toNat ∧ c.toNat ≤ 0x6FF)) → pdx_text reshapeBidi s = s := by
  intro f s h
  have hA : hasArabic s = false := by
    simp only [hasArabic, List.any_eq_false]
    intro c hc
    have hnc := h c hc
    have hnt : isArabicChar c ≠ true := by
      intro htrue
      unfold isArabicChar at htrue
      simp only [Bool.and_eq_true, decide_eq_true_eq] at htrue
      exact hnc htrue
    exact hnt
  unfold pdx_text
  rw [if_pos hA]

/-- C4 (witness): shaping is the identity on `"hello"` even under a shaping
library modelled as string reversal. -/
theorem claim_C4_witness :
    (∀ c ∈ "hello".data, ¬(0x600 ≤ c.toNat ∧ c.toNat ≤ 0x6FF)) ∧
    pdx_text (fun s => s.reverse) "hello".data = "hello".data :=
  ⟨by decide, claim_C4 (fun s => s.reverse) "hello".data (by decide)⟩

/-- C5: every run of a parsed document has direction RTL when its text
contains an Arabic-block character and LTR otherwise (never Auto); in
particular `"مرحبا"` parses to one Paragraph whose single run is RTL with
style `"arabic"`. -/
theorem claim_C5 :
    (∀ (x : Str) (d : Node), parse_content x = some d →
      ∀ r ∈ nodeRuns d,
        r.direction = (if hasArabic r.text then Direction.RTL else Direction.LTR)) ∧
    parse_content "مرحبا".data = some (.document
      [.paragraph [TextRun.new "مرحبا".data "ar".data "arabic".data] "arabic".data]) ∧
    (TextRun.new "مرحبا".data "ar".data "arabic".data).direction = Direction.RTL ∧
    (TextRun.new "مرحبا".data "ar".data "arabic".data).style = "arabic".data := by
  refine ⟨?_, rfl, rfl, rfl⟩
  intro x d hp r hr
  unfold parse_content at hp
  rcases Option.map_eq_some'.mp hp with ⟨bs, hbs, rfl⟩
  have hinv : ∀ b ∈ bs, BlockInv b := parseB_inv _ _ _ (rustLines_no_nl x) hbs
  rcases mem_nodeListRuns (show r ∈ nodeListRuns bs from hr) with ⟨b, hb, hrb⟩
  rcases blockInv_runs (hinv b hb) r hrb with ⟨t, style, rfl⟩
  exact run_new_dir t style

/-- C5 (witness): the general direction law applied to the run of the parsed
Arabic paragraph. -/
theorem claim_C5_witness :
    (TextRun.new "مرحبا".data "ar".data "arabic".data).direction =
      (if hasArabic (TextRun.new "مرحبا".data "ar".data "arabic".data).text
       then Direction.RTL else Direction.LTR) :=
  claim_C5.1 "مرحبا".data
    (.document [.paragraph [TextRun.new "مرحبا".data "ar".data "arabic".data] "arabic".data])
    rfl (TextRun.new "مرحبا".data "ar".data "arabic".data)
    (List.mem_singleton.mpr rfl)

/-- C7 (counterexample): a line of seven `'#'` marks parses to a Heading of
level 7, so parsed documents do contain headings above level 6 — neither the
parser nor the document model clamps the level. -/
theorem claim_C7_counterexample :
    parse_content "####### x".data = some (.document
      [.heading 7 [TextRun.new "x".data "en".data "heading7".data] "heading7".data]) ∧
    6 < 7 :=
  ⟨rfl, by omega⟩

/-- C7 (amended): no clamp to 6 exists; the only bound on a parsed Heading
level is the `u8` range — every heading level in a parsed document is below
256. -/
theorem claim_C7 : ∀ (x : Str) (d : Node), parse_content x = some d →
    ∀ lv ∈ headingLevels d, lv < 256 := by
  intro x d hp lv hlv
  unfold parse_content at hp
  rcases Option.map_eq_some'.mp hp with ⟨bs, hbs, rfl⟩
  have hinv : ∀ b ∈ bs, BlockInv b := parseB_inv _ _ _ (rustLines_no_nl x) hbs
  rcases mem_headingLevelsList (show lv ∈ headingLevelsList bs from hlv) with ⟨b, hb, hlb⟩
  exact blockInv_levels (hinv b hb) lv hlb

/-- C7 (witness): the u8 bound applied to the level-7 heading document. -/
theorem claim_C7_witness : (7 : Nat) < 256 :=
  claim_C7 "####### x".data
    (.document [.heading 7 [TextRun.new "x".data "en".data "heading7".data] "heading7".data])
    rfl 7 (List.mem_singleton.mpr rfl)

/-- C8 (counterexample): the paginated PDF export writes nothing for a code
block (it falls into the wildcard `_ => {}` arm), while the preview renders
the language tag and the code body — refuting that all three projections emit
the code block's language and code. -/
theorem claim_C8_counterexample :
    pdfTexts (fun s => s) (.document [.codeBlock "rust".data "x".data "code".data]) = [] ∧
    previewTexts (fun s => s) (fun _ => false)
      (.document [.codeBlock "rust".data "x".data "code".data]) =
      ["rust".data, "x".data] :=
  ⟨rfl, rfl⟩

/-- C8 (amended): the preview and the static HTML export render a code
block's language tag and code body verbatim with no shaping; the paginated
PDF export omits code blocks entirely. -/
theorem claim_C8 : ∀ (f : Str → Str) (imgs : Str → Bool) (language code style : Str),
    previewTexts f imgs (.codeBlock language code style) = [language, code] ∧
    node_to_html (.codeBlock language code style) =
      "<pre><code class=\"language-".data ++ language ++ "\">".data ++ code ++
        "</code></pre>\n".data ∧
    pdfTexts f (.codeBlock language code style) = [] :=
  fun _ _ _ _ _ => ⟨rfl, rfl, rfl⟩

/-- C9: a run's direction is a function of its language code alone (RTL
exactly for `"ar"`, `"fa"`, `"ur"`), and every run of a parsed document has
language `"ar"` or `"en"` and a direction that is never `Auto`. -/
theorem claim_C9 :
    (∀ (text language style : Str),
      (TextRun.new text language style).direction =
        (if language = "ar".data ∨ language = "fa".data ∨ language = "ur".data
         then Direction.RTL else Direction.LTR)) ∧
    (∀ (x : Str) (d : Node), parse_content x = some d → ∀ r ∈ nodeRuns d,
      (r.language = "ar".data ∨ r.language = "en".data) ∧ r.direction ≠ Direction.Auto) := by
  constructor
  · intro text language style
    rfl
  · intro x d hp r hr
    unfold parse_content at hp
    rcases Option.map_eq_some'.mp hp with ⟨bs, hbs, rfl⟩
    have hinv : ∀ b ∈ bs, BlockInv b := parseB_inv _ _ _ (rustLines_no_nl x) hbs
    rcases mem_nodeListRuns (show r ∈ nodeListRuns bs from hr) with ⟨b, hb, hrb⟩
    rcases blockInv_runs (hinv b hb) r hrb with ⟨t, style, rfl⟩
    constructor
    · show arLang t = "ar".data ∨ arLang t = "en".data
      unfold arLang
      by_cases h : hasArabic t
      · rw [if_pos h]
        exact Or.inl rfl
      · rw [if_neg h]
        exact Or.inr rfl
    · rw [run_new_dir]
      by_cases h : hasArabic t
      · rw [if_pos h]
        intro hc
        cases hc
      · rw [if_neg h]
        intro hc
        cases hc

/-- C9 (witness): the parsed Arabic paragraph's run has language `"ar"` and a
non-Auto direction. -/
theorem claim_C9_witness :
    ((TextRun.new "مرحبا".data "ar".data "arabic".data).language = "ar".data ∨
      (TextRun.new "مرحبا".data "ar".data "arabic".data).language = "en".data) ∧
    (TextRun.new "مرحبا".data "ar".data "arabic".data).direction ≠ Direction.Auto :=
  claim_C9.2 "مرحبا".data
    (.document [.paragraph [TextRun.new "مرحبا".data "ar".data "arabic".data] "arabic".data])
    rfl (TextRun.new "مرحبا".data "ar".data "arabic".data)
    (List.mem_singleton.mpr rfl)

/-- C10: a heading line whose leading-`'#'` count is `n` parses to a Heading
of level `n % 256` (the `as u8` truncation), for any trimmed newline-free
heading text. -/
theorem claim_C10 : ∀ (n : Nat) (t : Str), 0 < n → rtrim t = t → '\n' ∉ t →
    parse_content (List.replicate n '#' ++ ' ' :: t) =
      some (.document [.heading (n % 256)
        [TextRun.new t (arLang t) (headingStyle (n % 256))]
        (headingStyle (n % 256))]) := by
  intro n t hn ht hnl
  have hlnl : '\n' ∉ (List.replicate n '#' ++ ' ' :: t : Str) := by
    intro hm
    rcases List.mem_append.mp hm with hm | hm
    · exact absurd (List.eq_of_mem_replicate hm) (by decide)
    · rcases List.mem_cons.mp hm with h | hm
      · exact absurd h (by decide)
      · exact hnl hm
  have hlines : rustLines (List.replicate n '#' ++ ' ' :: t) =
      [List.replicate n '#' ++ ' ' :: t] := by
    unfold rustLines
    rw [splitNL_nl_free _ hlnl]
    show [] ++ _ = _
    rw [List.nil_append]
    rw [show (([List.replicate n '#' ++ ' ' :: t] : List Str)).getLast? =
      some (List.replicate n '#' ++ ' ' :: t) from rfl]
    show (if (List.replicate n '#' ++ ' ' :: t : Str) = [] then ([] : List Str)
      else [List.replicate n '#' ++ ' ' :: t]) = [List.replicate n '#' ++ ' ' :: t]
    rw [if_neg (by simp)]
  unfold parse_content
  rw [hlines]
  rw [show (List.replicate n '#' : Str) = repChar '#' n from rfl]
  rw [consume_heading_raw ([repChar '#' n ++ ' ' :: t] : List Str).length [] n t hn ht]
  rfl

/-- C10 (witness): a line of 256 `'#'` marks parses to a Heading of level 0,
the 8-bit wraparound the claim predicts. -/
theorem claim_C10_witness :
    0 < 256 ∧ rtrim "x".data = "x".data ∧ '\n' ∉ "x".data ∧
    parse_content (List.replicate 256 '#' ++ ' ' :: "x".data) =
      some (.document [.heading 0
        [TextRun.new "x".data "en".data "heading0".data] "heading0".data]) :=
  ⟨by decide, by decide, by decide, claim_C10 256 "x".data (by decide) (by decide) (by decide)⟩

/-- C6: style resolution by name never fails and never mutates the sheet — on
a missing name it returns the all-default `Style` and the sheet unchanged. -/
theorem claim_C6 : ∀ (sheet : StyleSheet) (name : Str),
    (∀ p ∈ sheet.styles, p.1 ≠ name) →
    (resolveStyleS sheet name).1 = defaultStyle ∧ (resolveStyleS sheet name).2 = sheet := by
  intro sheet name h
  refine ⟨?_, rfl⟩
  show (lookupStyle sheet.styles name).getD defaultStyle = defaultStyle
  rw [lookupStyle_none name sheet.styles h]
  rfl

/-- C6 (witness): resolving `"nonexistent"` against a one-entry sheet yields
the default style and leaves the sheet unchanged. -/
theorem claim_C6_witness :
    (∀ p ∈ (StyleSheet.mk [("heading1".data,
        { font_size := 28.0, font_weight := FontWeight.Bold, color := Color.rgb 0 0 0,
          text_align := TextAlign.Start, direction := Direction.LTR, line_height := 1.0,
          margin := EdgeInsets.all 0.0, padding := EdgeInsets.all 0.0 })]
        "default".data).styles, p.1 ≠ "nonexistent".data) ∧
    (resolveStyleS (StyleSheet.mk [("heading1".data,
        { font_size := 28.0, font_weight := FontWeight.Bold, color := Color.rgb 0 0 0,
          text_align := TextAlign.Start, direction := Direction.LTR, line_height := 1.0,
          margin := EdgeInsets.all 0.0, padding := EdgeInsets.all 0.0 })]
        "default".data) "nonexistent".data).1 = defaultStyle :=
  ⟨by
    intro p hp
    rcases List.mem_singleton.mp hp with rfl
    decide,
   (claim_C6 _ "nonexistent".data (by
    intro p hp
    rcases List.mem_singleton.mp hp with rfl
    decide)).1⟩

